import Mathlib

/-!
Verification of the litebrite work-item store (model, graph mutations, three-way merge).

The Rust source keeps a Store with a BTreeMap of items keyed by id and a Vec of
dependency edges.  We embed the BTreeMap as an association list sorted strictly by key
(the representation invariant Store.WF below), and each store operation as a Lean
function translated from src/store.rs and src/model.rs.  Machine integers only get
compared and copied here (priority is a u8, timestamps are chrono DateTimes with a
total order), so priorities are Nat and timestamps Int.
-/

set_option autoImplicit false

/-- Embeds the ItemType enum of src/model.rs. -/
inductive ItemType where
  | epic
  | feature
  | task
deriving DecidableEq, Repr

/-- Embeds the Status enum of src/model.rs.  The Rust variant named Open is called
opened here because that word is a Lean keyword. -/
inductive Status where
  | opened
  | closed
deriving DecidableEq, Repr

/-- Embeds the Item struct of src/model.rs.  Timestamps are Ints (chrono DateTime is
only ever compared with max and copied), priority (a u8) is a Nat since it is only
compared. -/
structure Item where
  id : String
  title : String
  description : Option String
  item_type : ItemType
  status : Status
  priority : Nat
  claimed_by : Option String
  created_at : Int
  updated_at : Int
deriving DecidableEq, Repr

/-- Embeds the Dep struct of src/model.rs. -/
inductive DepType where
  | parent
  | blocks
deriving DecidableEq, Repr

/-- Embeds the Dep struct of src/model.rs (a dependency edge). -/
structure Dep where
  from_id : String
  to_id : String
  dep_type : DepType
deriving DecidableEq, Repr

/-- Embeds the Store struct of src/model.rs.  The items BTreeMap is represented as an
association list sorted strictly by key (see Store.WF); deps is the Vec of edges. -/
structure Store where
  items : List (String × Item)
  deps : List Dep
deriving DecidableEq, Repr

/-- Lexicographic order on char lists by code point, the key order of the Rust
BTreeMap over String keys (byte order and char order agree on the ASCII ids this
system generates).  Written as structural recursion on Nat comparisons so that
concrete instances evaluate inside the kernel. -/
def charListLt : List Char → List Char → Bool
  | _, [] => false
  | [], _ :: _ => true
  | a :: as, b :: bs =>
    if a.toNat < b.toNat then true
    else if b.toNat < a.toNat then false
    else charListLt as bs

/-- Key order on Strings used by the BTreeMap embedding. -/
def strLt (a b : String) : Bool :=
  charListLt a.data b.data

/-- Prefix test on char lists. -/
def charListIsPrefix : List Char → List Char → Bool
  | [], _ => true
  | _ :: _, [] => false
  | a :: as, b :: bs => a == b && charListIsPrefix as bs

/-- Embeds str::starts_with as used by resolve_id (for valid UTF-8 strings the Rust
byte-prefix test agrees with the char-prefix test). -/
def strIsPrefixOf (p s : String) : Bool :=
  charListIsPrefix p.data s.data

/-- Association-list lookup, the embedding of BTreeMap get. -/
def lookupItem : List (String × Item) → String → Option Item
  | [], _ => none
  | (k, v) :: rest, id => if k = id then some v else lookupItem rest id

/-- Embeds BTreeMap contains_key. -/
def containsKey (l : List (String × Item)) (k : String) : Bool :=
  (lookupItem l k).isSome

/-- Embeds BTreeMap insert on the sorted association list: replaces the binding if the
key is present, otherwise places the new binding at its sorted position. -/
def insertItem (k : String) (v : Item) : List (String × Item) → List (String × Item)
  | [] => [(k, v)]
  | (k1, v1) :: rest =>
    if strLt k k1 then (k, v) :: (k1, v1) :: rest
    else if k = k1 then (k, v) :: rest
    else (k1, v1) :: insertItem k v rest

/-- Embeds BTreeMap remove (dropping the binding of the key, if any). -/
def removeKey (k : String) : List (String × Item) → List (String × Item)
  | [] => []
  | (k1, v1) :: rest => if k1 = k then rest else (k1, v1) :: removeKey k rest

/-- Keys of the items map, in map order (the embedding of BTreeMap keys()). -/
def storeKeys (s : Store) : List String :=
  s.items.map Prod.fst

/-- Values of the items map, in map order (the embedding of BTreeMap values()). -/
def itemValues (s : Store) : List Item :=
  s.items.map Prod.snd

/-- Embeds resolve_id of src/store.rs: an exact id match wins immediately, otherwise a
unique prefix match; zero matches and ambiguous prefixes are errors. -/
def resolve_id (s : Store) (pre : String) : Except String String :=
  if containsKey s.items pre then Except.ok pre
  else
    match (storeKeys s).filter (fun id => strIsPrefixOf pre id) with
    | [] => Except.error ("no item matching '" ++ pre ++ "'")
    | [m] => Except.ok m
    | _ => Except.error ("ambiguous prefix '" ++ pre ++ "'")

/-- Item constructed by create_item: fresh id, status Open, no claimant, both
timestamps now. -/
def newItem (newId title : String) (item_type : ItemType) (priority : Nat)
    (description : Option String) (now : Int) : Item :=
  { id := newId, title := title, description := description, item_type := item_type,
    status := Status.opened, priority := priority, claimed_by := none,
    created_at := now, updated_at := now }

/-- Store after create_item has inserted the new item (before any dep is pushed). -/
def insertNew (s : Store) (newId title : String) (item_type : ItemType)
    (priority : Nat) (description : Option String) (now : Int) : Store :=
  { s with items :=
      insertItem newId (newItem newId title item_type priority description now) s.items }

/-- Embeds create_item of src/store.rs.  The Rust code draws the fresh id from
generate_id (src/id.rs), a randomized collision-retried generator that the spec puts
out of scope; its result is passed in here as newId, whose only contract is freshness
with respect to the existing ids.  Rust mutates the store in place and returns a
Result of the id, so errors can leave a partially updated store; the embedding
therefore returns the result together with the store as it stands when the function
returns.  Note the source resolves the parent prefix a second time after inserting the
new item. -/
def create_item (s : Store) (newId : String) (title : String) (item_type : ItemType)
    (priority : Nat) (description : Option String) (parent_id : Option String)
    (now : Int) : Except String String × Store :=
  match parent_id with
  | none => (Except.ok newId, insertNew s newId title item_type priority description now)
  | some pid =>
    match resolve_id s pid with
    | Except.error e => (Except.error e, s)
    | Except.ok resolved =>
      if containsKey s.items resolved then
        match resolve_id (insertNew s newId title item_type priority description now)
            pid with
        | Except.error e =>
          (Except.error e, insertNew s newId title item_type priority description now)
        | Except.ok r2 =>
          (Except.ok newId,
            { items :=
                (insertNew s newId title item_type priority description now).items,
              deps := s.deps ++ [Dep.mk newId r2 DepType.parent] })
      else (Except.error ("parent '" ++ resolved ++ "' not found"), s)

/-- Embeds delete_item of src/store.rs: resolve, remove the item (error if absent),
drop every dep touching it. -/
def delete_item (s : Store) (id : String) : Except String Store :=
  match resolve_id s id with
  | Except.error e => Except.error e
  | Except.ok rid =>
    if containsKey s.items rid then
      Except.ok { items := removeKey rid s.items,
                  deps := s.deps.filter (fun d => !(d.from_id == rid) && !(d.to_id == rid)) }
    else Except.error ("item '" ++ rid ++ "' not found")

/-- Embeds get_children of src/store.rs. -/
def get_children (s : Store) (id : String) : List String :=
  (s.deps.filter (fun d => d.dep_type == DepType.parent && d.to_id == id)).map Dep.from_id

/-- Embeds get_parent of src/store.rs. -/
def get_parent (s : Store) (id : String) : Option String :=
  (s.deps.find? (fun d => d.dep_type == DepType.parent && d.from_id == id)).map Dep.to_id

/-- Embeds get_blockers of src/store.rs. -/
def get_blockers (s : Store) (id : String) : List String :=
  (s.deps.filter (fun d => d.dep_type == DepType.blocks && d.to_id == id)).map Dep.from_id

/-- Embeds get_blocking of src/store.rs. -/
def get_blocking (s : Store) (id : String) : List String :=
  (s.deps.filter (fun d => d.dep_type == DepType.blocks && d.from_id == id)).map Dep.to_id

/-- Embeds add_blocking_dep of src/store.rs. -/
def add_blocking_dep (s : Store) (blocker blocked : String) : Except String Store :=
  match resolve_id s blocker with
  | Except.error e => Except.error e
  | Except.ok blocker =>
    match resolve_id s blocked with
    | Except.error e => Except.error e
    | Except.ok blocked =>
      if blocker = blocked then Except.error "item cannot block itself"
      else
        let dep : Dep := Dep.mk blocker blocked DepType.blocks
        if s.deps.contains dep then Except.error "dependency already exists"
        else Except.ok { s with deps := s.deps ++ [dep] }

/-- Embeds remove_dep of src/store.rs. -/
def remove_dep (s : Store) (fr toArg : String) : Except String Store :=
  match resolve_id s fr with
  | Except.error e => Except.error e
  | Except.ok fr =>
    match resolve_id s toArg with
    | Except.error e => Except.error e
    | Except.ok toArg =>
      let remaining := s.deps.filter (fun d => !(d.from_id == fr && d.to_id == toArg))
      if remaining.length = s.deps.length then
        Except.error ("no dependency from '" ++ fr ++ "' to '" ++ toArg ++ "'")
      else Except.ok { s with deps := remaining }

/-- Embeds the while loop of set_parent (src/store.rs lines 165-175) that walks the
ancestor chain of the proposed parent.  The loop as written carries no visited-set, so
it need not terminate; fuel counts loop iterations, and a result of none means the
loop has not finished within that many iterations (the Rust loop produces an answer r
exactly when some fuel yields some r). -/
def walkFuel (s : Store) (child : String) : String → Nat → Option (Except String Unit)
  | _, 0 => none
  | cur, Nat.succ n =>
    match get_parent s cur with
    | none => some (Except.ok ())
    | some anc =>
      if anc = child then some (Except.error "cycle detected: would create circular parent chain")
      else walkFuel s child anc n

/-- Body of set_parent after both arguments have been resolved: the self-parent
check, the ancestor walk, and on success the replacement of the ParentOf edge. -/
def set_parent_resolved (fuel : Nat) (s : Store) (child parent : String) :
    Option (Except String Store) :=
  if child = parent then some (Except.error "item cannot be its own parent")
  else
    match walkFuel s child parent fuel with
    | none => none
    | some (Except.error e) => some (Except.error e)
    | some (Except.ok ()) =>
      some (Except.ok { s with deps :=
        (s.deps.filter (fun d =>
          !(d.from_id == child && d.dep_type == DepType.parent)))
        ++ [Dep.mk child parent DepType.parent] })

/-- Embeds set_parent of src/store.rs.  The fuel bounds the iterations of the ancestor
walk; none means the walk (hence the Rust function) has not returned within that
bound. -/
def set_parent (fuel : Nat) (s : Store) (child parent : String) :
    Option (Except String Store) :=
  match resolve_id s child with
  | Except.error e => some (Except.error e)
  | Except.ok child =>
    match resolve_id s parent with
    | Except.error e => some (Except.error e)
    | Except.ok parent => set_parent_resolved fuel s child parent

/-- Filter stage of ready_items (src/store.rs lines 190-204): open, unclaimed, and
every blocker present with status closed. -/
def readyFilter (s : Store) : List Item :=
  (itemValues s).filter (fun item =>
    item.status == Status.opened && item.claimed_by == none &&
    (get_blockers s item.id).all (fun bid =>
      match lookupItem s.items bid with
      | some b => b.status == Status.closed
      | none => false))

/-- Stable insertion step embedding the stable sort_by_key(priority) of ready_items:
an element is placed before the first element of strictly greater priority, after
every element of smaller or equal priority that preceded it. -/
def insertByPriority (x : Item) : List Item → List Item
  | [] => [x]
  | y :: ys =>
    if x.priority ≤ y.priority then x :: y :: ys else y :: insertByPriority x ys

/-- Embeds ready_items of src/store.rs: filter then a stable sort by priority (Rust
Vec sort_by_key is stable; the values come out of the BTreeMap in id order). -/
def ready_items (s : Store) : List Item :=
  (readyFilter s).foldr insertByPriority []

/-- Embeds root_items of src/store.rs. -/
def root_items (s : Store) : List Item :=
  (itemValues s).filter (fun item => (get_parent s item.id).isNone)

/-- Embeds Status::deserialize of src/model.rs: open and the three legacy tokens map
to opened, closed to closed, anything else is an error. -/
def statusDeserialize (s : String) : Except String Status :=
  if s = "open" || s = "in_progress" || s = "blocked" || s = "deferred" then
    Except.ok Status.opened
  else if s = "closed" then Except.ok Status.closed
  else Except.error ("unknown status: " ++ s)

/-- Modelled from the spec: the field updates close performs (status=Closed, claimant
cleared, timestamp bumped), split out of close_item below. -/
def closeUpdate (it : Item) (now : Int) : Item :=
  { it with status := Status.closed, claimed_by := none, updated_at := now }

/-- Modelled from the spec: close_item is called by the close command in src/main.rs
(line 262) but its definition is not under src/.  Spec section 4.1: close(id) fails
HasOpenChildren if any child (via children(id)) has status other than Closed;
otherwise it sets status=Closed, clears the claimant and updates the timestamp.  The
id argument arrives already resolved (main.rs resolves before calling). -/
def close_item (s : Store) (id : String) (now : Int) : Except String Store :=
  match lookupItem s.items id with
  | none => Except.error ("item '" ++ id ++ "' not found")
  | some it =>
    if (get_children s id).any (fun cid =>
        match lookupItem s.items cid with
        | some c => c.status != Status.closed
        | none => false) then
      Except.error "cannot close: item has open children"
    else
      Except.ok { s with items := insertItem id (closeUpdate it now) s.items }

/-- Embeds merge_items of src/store.rs: per-field, ours wins where it diverged from
base, otherwise theirs; claimed_by prefers theirs when theirs diverged from base;
updated_at is the later of the two. -/
def merge_items (base ours theirs : Item) : Item :=
  { id := ours.id,
    title := if ours.title ≠ base.title then ours.title else theirs.title,
    description :=
      if ours.description ≠ base.description then ours.description else theirs.description,
    item_type :=
      if ours.item_type ≠ base.item_type then ours.item_type else theirs.item_type,
    status := if ours.status ≠ base.status then ours.status else theirs.status,
    priority := if ours.priority ≠ base.priority then ours.priority else theirs.priority,
    claimed_by :=
      if theirs.claimed_by ≠ base.claimed_by then theirs.claimed_by else ours.claimed_by,
    created_at := ours.created_at,
    updated_at := max ours.updated_at theirs.updated_at }

/-- Presence match of merge_stores (src/store.rs lines 241-271), deciding the merged
item for one id from its presence in base and the two sides. -/
def mergeResolve (b o t : Option Item) : Option Item :=
  match b, o, t with
  | none, some it, none => some it
  | none, none, some it => some it
  | none, some _, some it => some it
  | some _, some _, none => none
  | some _, none, some _ => none
  | some bi, some oi, some ti => some (merge_items bi oi ti)
  | some _, none, none => none
  | none, none, none => none

/-- Sorted insertion of an id, used to build the deduplicated sorted union of the key
sets of the three stores (the all_ids HashSet of merge_stores, traversed here in the
canonical ascending order; the BTreeMap the Rust loop inserts into makes the traversal
order immaterial). -/
def insertSortedId (x : String) : List String → List String
  | [] => [x]
  | y :: ys =>
    if x = y then y :: ys
    else if strLt x y then x :: y :: ys
    else y :: insertSortedId x ys

/-- Sorted deduplicated union of a list of ids. -/
def sortedIdUnion (l : List String) : List String :=
  l.foldr insertSortedId []

/-- All item ids across the three stores (the all_ids set of merge_stores), sorted. -/
def allIds (base ours theirs : Store) : List String :=
  sortedIdUnion (storeKeys base ++ storeKeys ours ++ storeKeys theirs)

/-- Item map of the merged store: the merge_stores loop over all_ids, inserting each
resolved item into the result map. -/
def mergedItems (base ours theirs : Store) : List (String × Item) :=
  (allIds base ours theirs).foldl
    (fun acc id =>
      match mergeResolve (lookupItem base.items id) (lookupItem ours.items id)
          (lookupItem theirs.items id) with
      | some it => insertItem id it acc
      | none => acc) []

/-- Dep filter of merge_stores (src/store.rs lines 282-302): a dep from one side is
kept when it is new relative to base or still present on the other side, and both its
endpoints survived the item merge. -/
def mergeDepKeep (base other : Store) (mergedI : List (String × Item)) (d : Dep) : Bool :=
  (!(base.deps.contains d) || other.deps.contains d)
  && containsKey mergedI d.from_id && containsKey mergedI d.to_id

/-- Boolean key order by (from_id, to_id) used for the final dep sort of
merge_stores. -/
def depKeyLe (x y : Dep) : Bool :=
  strLt x.from_id y.from_id
  || (x.from_id == y.from_id && (strLt x.to_id y.to_id || x.to_id == y.to_id))

/-- Stable insertion for the final sort of merged deps by (from_id, to_id). -/
def insertDepSorted (x : Dep) : List Dep → List Dep
  | [] => [x]
  | y :: ys => if depKeyLe x y then x :: y :: ys else y :: insertDepSorted x ys

/-- Stable sort of deps by (from_id, to_id) (Vec sort_by is stable). -/
def sortDeps (l : List Dep) : List Dep :=
  l.foldr insertDepSorted []

/-- Merged store produced by merge_stores: item map from the per-id resolution, deps
from the two filtered sides, deduplicated (the HashSet) and sorted by (from, to). -/
def mergeOut (base ours theirs : Store) : Store :=
  let mi := mergedItems base ours theirs
  { items := mi,
    deps := sortDeps ((ours.deps.filter (mergeDepKeep base theirs mi)
      ++ theirs.deps.filter (mergeDepKeep base ours mi)).dedup) }

/-- Embeds merge_stores of src/store.rs (which always returns Ok). -/
def merge_stores (base ours theirs : Store) : Except String Store :=
  Except.ok (mergeOut base ours theirs)

/-- Representation invariant of the BTreeMap embedding: bindings sorted strictly by
key, and (as the store code maintains) each item records its own key in its id
field. -/
structure Store.WF (s : Store) : Prop where
  sorted : s.items.Pairwise (fun a b => strLt a.1 b.1 = true)
  idMatch : ∀ p ∈ s.items, p.2.id = p.1

/-- One ParentOf step: x has parent y. -/
def parentStep (s : Store) (x y : String) : Prop :=
  Dep.mk x y DepType.parent ∈ s.deps

/-- Forest property claimed by the spec: no item is its own ancestor, direct or
transitive, through ParentOf edges. -/
def forestAcyclic (s : Store) : Prop :=
  ∀ x, ¬ Relation.TransGen (parentStep s) x x

/-- At most one ParentOf edge per from-item (spec section 3). -/
def singleParent (s : Store) : Prop :=
  ∀ d1 ∈ s.deps, ∀ d2 ∈ s.deps,
    d1.dep_type = DepType.parent → d2.dep_type = DepType.parent →
    d1.from_id = d2.from_id → d1 = d2

/-- Every edge references existing items (spec section 3). -/
def edgesValid (s : Store) : Prop :=
  ∀ d ∈ s.deps, containsKey s.items d.from_id = true ∧ containsKey s.items d.to_id = true

/-! Order facts about the key order strLt. -/

theorem charToNat_inj {a b : Char} (h : a.toNat = b.toNat) : a = b := by
  apply Char.eq_of_val_eq
  apply UInt32.eq_of_val_eq
  exact Fin.eq_of_val_eq h

theorem charListLt_irrefl : ∀ l, charListLt l l = false := by
  intro l
  induction l with
  | nil => rfl
  | cons a as ih => simp [charListLt, ih]

theorem charListLt_trans :
    ∀ {a b c : List Char}, charListLt a b = true → charListLt b c = true →
      charListLt a c = true := by
  intro a
  induction a with
  | nil =>
    intro b c hab hbc
    cases b with
    | nil => exact hbc
    | cons y ys =>
      cases c with
      | nil => simp [charListLt] at hbc
      | cons z zs => rfl
  | cons x xs ih =>
    intro b c hab hbc
    cases b with
    | nil => simp [charListLt] at hab
    | cons y ys =>
      cases c with
      | nil => simp [charListLt] at hbc
      | cons z zs =>
        simp only [charListLt] at hab hbc ⊢
        by_cases hxy : x.toNat < y.toNat
        · by_cases hyz : y.toNat < z.toNat
          · simp [show x.toNat < z.toNat from Nat.lt_trans hxy hyz]
          · simp [hyz] at hbc
            rcases hbc with ⟨hzy, _⟩
            have hxz : x.toNat < z.toNat := by omega
            simp [hxz]
        · simp [hxy] at hab
          rcases hab with ⟨hyx, htail⟩
          by_cases hyz : y.toNat < z.toNat
          · have hxz : x.toNat < z.toNat := by omega
            simp [hxz]
          · simp [hyz] at hbc
            rcases hbc with ⟨hzy, htail2⟩
            have hxz1 : ¬ x.toNat < z.toNat := by omega
            have hxz2 : ¬ z.toNat < x.toNat := by omega
            simp [hxz1, hxz2]
            exact ih htail htail2

theorem charListLt_conn :
    ∀ {a b : List Char}, charListLt a b = false → charListLt b a = false → a = b := by
  intro a
  induction a with
  | nil =>
    intro b hab _
    cases b with
    | nil => rfl
    | cons y ys => simp [charListLt] at hab
  | cons x xs ih =>
    intro b hab hba
    cases b with
    | nil => simp [charListLt] at hba
    | cons y ys =>
      simp only [charListLt] at hab hba
      by_cases hxy : x.toNat < y.toNat
      · simp [hxy] at hab
      · by_cases hyx : y.toNat < x.toNat
        · simp [hyx] at hba
        · simp [hxy, hyx] at hab hba
          have : x = y := charToNat_inj (by omega)
          subst this
          rw [ih hab hba]

theorem strLt_irrefl (a : String) : strLt a a = false :=
  charListLt_irrefl a.data

theorem strLt_trans {a b c : String} (hab : strLt a b = true) (hbc : strLt b c = true) :
    strLt a c = true :=
  charListLt_trans hab hbc

theorem strLt_asymm {a b : String} (hab : strLt a b = true) : strLt b a = false := by
  by_contra h
  have hba : strLt b a = true := by
    cases hh : strLt b a
    · exact absurd hh h
    · rfl
  have := strLt_trans hab hba
  rw [strLt_irrefl] at this
  exact Bool.false_ne_true this

theorem strLt_conn {a b : String} (hab : strLt a b = false) (hba : strLt b a = false) :
    a = b := by
  have hdata : a.data = b.data := charListLt_conn hab hba
  cases a
  cases b
  simp_all

theorem strLt_total (a b : String) : strLt a b = true ∨ strLt b a = true ∨ a = b := by
  cases hab : strLt a b
  · cases hba : strLt b a
    · exact Or.inr (Or.inr (strLt_conn hab hba))
    · exact Or.inr (Or.inl rfl)
  · exact Or.inl rfl

/-! Association-list facts for the BTreeMap embedding. -/

theorem lookupItem_eq_some_mem :
    ∀ {l : List (String × Item)} {k : String} {v : Item},
      lookupItem l k = some v → (k, v) ∈ l := by
  intro l
  induction l with
  | nil => intro k v h; simp [lookupItem] at h
  | cons p rest ih =>
    intro k v h
    obtain ⟨k1, v1⟩ := p
    simp only [lookupItem] at h
    by_cases hk : k1 = k
    · subst hk
      simp at h
      subst h
      exact List.mem_cons_self _ _
    · simp [hk] at h
      exact List.mem_cons_of_mem _ (ih h)

theorem lookupItem_isSome_iff :
    ∀ {l : List (String × Item)} {k : String},
      (lookupItem l k).isSome = true ↔ k ∈ l.map Prod.fst := by
  intro l
  induction l with
  | nil => intro k; simp [lookupItem]
  | cons p rest ih =>
    intro k
    obtain ⟨k1, v1⟩ := p
    simp only [lookupItem, List.map_cons, List.mem_cons]
    by_cases hk : k1 = k
    · subst hk; simp
    · rw [if_neg hk, ih]
      simp [Ne.symm hk]

theorem lookupItem_eq_none_iff {l : List (String × Item)} {k : String} :
    lookupItem l k = none ↔ k ∉ l.map Prod.fst := by
  rw [← lookupItem_isSome_iff (l := l) (k := k)]
  cases lookupItem l k <;> simp

theorem containsKey_iff {l : List (String × Item)} {k : String} :
    containsKey l k = true ↔ k ∈ l.map Prod.fst := by
  unfold containsKey
  exact lookupItem_isSome_iff

theorem lookupItem_of_mem :
    ∀ {l : List (String × Item)}, (l.map Prod.fst).Nodup →
      ∀ {k : String} {v : Item}, (k, v) ∈ l → lookupItem l k = some v := by
  intro l
  induction l with
  | nil => intro _ k v h; simp at h
  | cons p rest ih =>
    intro hnd k v h
    obtain ⟨k1, v1⟩ := p
    simp only [List.map_cons, List.nodup_cons] at hnd
    rcases List.mem_cons.mp h with heq | hmem
    · cases heq
      simp [lookupItem]
    · have hne : k1 ≠ k := by
        intro he
        subst he
        exact hnd.1 (List.mem_map.mpr ⟨(k1, v), hmem, rfl⟩)
      simp only [lookupItem, if_neg hne]
      exact ih hnd.2 hmem

theorem keys_nodup_of_sorted {l : List (String × Item)}
    (h : l.Pairwise (fun a b => strLt a.1 b.1 = true)) : (l.map Prod.fst).Nodup := by
  refine List.pairwise_map.mpr (h.imp ?_)
  intro a b hab he
  rw [he, strLt_irrefl] at hab
  exact Bool.false_ne_true hab

theorem lookupItem_insertItem :
    ∀ (l : List (String × Item)) (k : String) (v : Item) (k2 : String),
      lookupItem (insertItem k v l) k2 = if k = k2 then some v else lookupItem l k2 := by
  intro l k v
  induction l with
  | nil =>
    intro k2
    simp [insertItem, lookupItem]
  | cons p rest ih =>
    intro k2
    obtain ⟨k1, v1⟩ := p
    simp only [insertItem]
    by_cases hlt : strLt k k1 = true
    · simp [hlt, lookupItem]
    · rw [Bool.not_eq_true] at hlt
      by_cases heq : k = k1
      · subst heq
        simp only [hlt, Bool.false_eq_true, if_false, if_pos rfl, lookupItem]
        by_cases hk2 : k = k2 <;> simp [hk2]
      · simp only [hlt, Bool.false_eq_true, if_false, heq, if_neg, ite_false]
        by_cases hk2 : k1 = k2
        · subst hk2
          simp [lookupItem, heq]
        · simp [lookupItem, hk2, ih]

theorem pairwise_insertItem {l : List (String × Item)} {k : String} {v : Item}
    (h : l.Pairwise (fun a b => strLt a.1 b.1 = true)) :
    (insertItem k v l).Pairwise (fun a b => strLt a.1 b.1 = true) := by
  induction l with
  | nil => simp [insertItem]
  | cons p rest ih =>
    obtain ⟨k1, v1⟩ := p
    rcases List.pairwise_cons.mp h with ⟨hhead, htail⟩
    simp only [insertItem]
    by_cases hlt : strLt k k1 = true
    · rw [if_pos hlt]
      refine List.pairwise_cons.mpr ⟨?_, h⟩
      intro p hp
      rcases List.mem_cons.mp hp with he | hm
      · subst he; exact hlt
      · exact strLt_trans hlt (hhead p hm)
    · rw [Bool.not_eq_true] at hlt
      by_cases heq : k = k1
      · subst heq
        simp only [hlt, Bool.false_eq_true, if_false, if_pos rfl]
        exact List.pairwise_cons.mpr ⟨hhead, htail⟩
      · simp only [hlt, Bool.false_eq_true, if_false, heq, ite_false]
        refine List.pairwise_cons.mpr ⟨?_, ih htail⟩
        intro p hp
        have hk1k : strLt k1 k = true := by
          rcases strLt_total k k1 with ht | ht | ht
          · rw [ht] at hlt; exact absurd hlt (by simp)
          · exact ht
          · exact absurd ht heq
        have hmem : p = (k, v) ∨ p ∈ rest := by
          clear ih hhead htail h
          induction rest with
          | nil => simpa [insertItem] using hp
          | cons q rs ihr =>
            obtain ⟨kq, vq⟩ := q
            simp only [insertItem] at hp
            by_cases h1 : strLt k kq = true
            · simp [h1] at hp
              rcases hp with h2 | h2 | h2
              · exact Or.inl h2
              · exact Or.inr (by simp [h2])
              · exact Or.inr (List.mem_cons_of_mem _ h2)
            · rw [Bool.not_eq_true] at h1
              by_cases h2 : k = kq
              · subst h2
                simp [h1] at hp
                rcases hp with h3 | h3
                · exact Or.inl h3
                · exact Or.inr (List.mem_cons_of_mem _ h3)
              · simp only [h1, Bool.false_eq_true, if_false, h2, ite_false,
                  List.mem_cons] at hp
                rcases hp with h3 | h3
                · exact Or.inr (by simp [h3])
                · rcases ihr h3 with h4 | h4
                  · exact Or.inl h4
                  · exact Or.inr (List.mem_cons_of_mem _ h4)
        rcases hmem with he | hm
        · subst he; exact hk1k
        · exact hhead p hm

theorem mem_insertItem_elim :
    ∀ {l : List (String × Item)} {k : String} {v : Item} {p : String × Item},
      p ∈ insertItem k v l → p = (k, v) ∨ p ∈ l := by
  intro l k v
  induction l with
  | nil => intro p hp; simpa [insertItem] using hp
  | cons q rest ih =>
    intro p hp
    obtain ⟨kq, vq⟩ := q
    simp only [insertItem] at hp
    by_cases h1 : strLt k kq = true
    · simp [h1] at hp
      rcases hp with h | h | h
      · exact Or.inl h
      · exact Or.inr (by simp [h])
      · exact Or.inr (List.mem_cons_of_mem _ h)
    · rw [Bool.not_eq_true] at h1
      by_cases h2 : k = kq
      · subst h2
        simp [h1] at hp
        rcases hp with h | h
        · exact Or.inl h
        · exact Or.inr (List.mem_cons_of_mem _ h)
      · simp only [h1, Bool.false_eq_true, if_false, h2, ite_false, List.mem_cons] at hp
        rcases hp with h | h
        · exact Or.inr (by simp [h])
        · rcases ih h with h4 | h4
          · exact Or.inl h4
          · exact Or.inr (List.mem_cons_of_mem _ h4)

theorem removeKey_sublist : ∀ (k : String) (l : List (String × Item)),
    (removeKey k l).Sublist l := by
  intro k l
  induction l with
  | nil => simp [removeKey]
  | cons p rest ih =>
    obtain ⟨k1, v1⟩ := p
    simp only [removeKey]
    by_cases h : k1 = k
    · simp [h]
    · simp only [h, ite_false]
      exact List.Sublist.cons₂ _ ih

theorem pairwise_removeKey {l : List (String × Item)} {k : String}
    (h : l.Pairwise (fun a b => strLt a.1 b.1 = true)) :
    (removeKey k l).Pairwise (fun a b => strLt a.1 b.1 = true) :=
  h.sublist (removeKey_sublist k l)

theorem lookupItem_removeKey_ne {k k2 : String} (hne : k2 ≠ k) :
    ∀ (l : List (String × Item)),
      lookupItem (removeKey k l) k2 = lookupItem l k2 := by
  intro l
  induction l with
  | nil => rfl
  | cons p rest ih =>
    obtain ⟨k1, v1⟩ := p
    simp only [removeKey]
    by_cases h : k1 = k
    · rw [if_pos h, show lookupItem ((k1, v1) :: rest) k2 =
          if k1 = k2 then some v1 else lookupItem rest k2 from rfl,
        if_neg (fun he => hne (h ▸ he.symm))]
    · simp only [h, ite_false, lookupItem]
      by_cases h2 : k1 = k2
      · simp [h2]
      · simp [h2, ih]

theorem lookupItem_removeKey_self {l : List (String × Item)}
    (h : (l.map Prod.fst).Nodup) (k : String) :
    lookupItem (removeKey k l) k = none := by
  induction l with
  | nil => rfl
  | cons p rest ih =>
    obtain ⟨k1, v1⟩ := p
    simp only [List.map_cons, List.nodup_cons] at h
    simp only [removeKey]
    by_cases he : k1 = k
    · rw [if_pos he, lookupItem_eq_none_iff]
      exact he ▸ h.1
    · rw [if_neg he]
      simp only [lookupItem, if_neg he]
      exact ih h.2

theorem pairwise_ext {α : Type} {r : α → α → Prop}
    (hasym : ∀ a b, r a b → r b a → False) :
    ∀ {l1 l2 : List α}, l1.Pairwise r → l2.Pairwise r →
      (∀ x, x ∈ l1 ↔ x ∈ l2) → l1 = l2 := by
  intro l1
  induction l1 with
  | nil =>
    intro l2 _ _ hmem
    cases l2 with
    | nil => rfl
    | cons b t2 => exact absurd ((hmem b).mpr (List.mem_cons_self b t2)) (by simp)
  | cons a t1 ih =>
    intro l2 h1 h2 hmem
    cases l2 with
    | nil => exact absurd ((hmem a).mp (List.mem_cons_self a t1)) (by simp)
    | cons b t2 =>
      rcases List.pairwise_cons.mp h1 with ⟨ha, ht1⟩
      rcases List.pairwise_cons.mp h2 with ⟨hb, ht2⟩
      have hab : a = b := by
        rcases List.mem_cons.mp ((hmem a).mp (List.mem_cons_self a t1)) with he | hm
        · exact he
        · rcases List.mem_cons.mp ((hmem b).mpr (List.mem_cons_self b t2)) with he2 | hm2
          · exact he2.symm
          · exact absurd (hb a hm) (fun hr => hasym a b (ha b hm2) hr)
      subst hab
      have htailmem : ∀ x, x ∈ t1 ↔ x ∈ t2 := by
        intro x
        constructor
        · intro hx
          rcases List.mem_cons.mp ((hmem x).mp (List.mem_cons_of_mem _ hx)) with he | hm
          · subst he
            exact absurd (ha x hx) (fun hr => hasym x x hr hr)
          · exact hm
        · intro hx
          rcases List.mem_cons.mp ((hmem x).mpr (List.mem_cons_of_mem _ hx)) with he | hm
          · subst he
            exact absurd (hb x hx) (fun hr => hasym x x hr hr)
          · exact hm
      rw [ih ht1 ht2 htailmem]

/-! Facts about the sorted union of ids used by the merge. -/

theorem mem_insertSortedId {x : String} :
    ∀ {l : List String} {y : String}, y ∈ insertSortedId x l ↔ y = x ∨ y ∈ l := by
  intro l
  induction l with
  | nil => intro y; simp [insertSortedId]
  | cons z zs ih =>
    intro y
    simp only [insertSortedId]
    by_cases h1 : x = z
    · subst h1
      rw [if_pos rfl]
      simp only [List.mem_cons]
      tauto
    · rw [if_neg h1]
      by_cases h2 : strLt x z = true
      · rw [if_pos h2]
        simp only [List.mem_cons]
      · rw [if_neg h2]
        simp only [List.mem_cons, ih]
        tauto

theorem pairwise_insertSortedId {x : String} :
    ∀ {l : List String}, l.Pairwise (fun a b => strLt a b = true) →
      (insertSortedId x l).Pairwise (fun a b => strLt a b = true) := by
  intro l
  induction l with
  | nil => intro _; simp [insertSortedId]
  | cons z zs ih =>
    intro h
    rcases List.pairwise_cons.mp h with ⟨hz, hzs⟩
    simp only [insertSortedId]
    by_cases h1 : x = z
    · rw [if_pos h1]; exact h
    · rw [if_neg h1]
      by_cases h2 : strLt x z = true
      · rw [if_pos h2]
        refine List.pairwise_cons.mpr ⟨?_, h⟩
        intro y hy
        rcases List.mem_cons.mp hy with he | hm
        · subst he; exact h2
        · exact strLt_trans h2 (hz y hm)
      · rw [if_neg h2]
        refine List.pairwise_cons.mpr ⟨?_, ih hzs⟩
        intro y hy
        rcases mem_insertSortedId.mp hy with he | hm
        · subst he
          rcases strLt_total y z with ht | ht | ht
          · exact absurd ht h2
          · exact ht
          · exact absurd ht h1
        · exact hz y hm

theorem mem_sortedIdUnion {l : List String} {y : String} :
    y ∈ sortedIdUnion l ↔ y ∈ l := by
  induction l with
  | nil => simp [sortedIdUnion]
  | cons z zs ih =>
    show y ∈ insertSortedId z (sortedIdUnion zs) ↔ _
    rw [mem_insertSortedId]
    simp [ih]

theorem pairwise_sortedIdUnion (l : List String) :
    (sortedIdUnion l).Pairwise (fun a b => strLt a b = true) := by
  induction l with
  | nil => simp [sortedIdUnion]
  | cons z zs ih => exact pairwise_insertSortedId ih

theorem nodup_sortedIdUnion (l : List String) : (sortedIdUnion l).Nodup := by
  refine (pairwise_sortedIdUnion l).imp ?_
  intro a b hab he
  rw [he, strLt_irrefl] at hab
  exact Bool.false_ne_true hab

/-! Characterization of the merged item map. -/

theorem insertItem_append {k : String} {v : Item} :
    ∀ {l : List (String × Item)}, (∀ p ∈ l, strLt p.1 k = true) →
      insertItem k v l = l ++ [(k, v)] := by
  intro l
  induction l with
  | nil => intro _; rfl
  | cons p rest ih =>
    intro h
    obtain ⟨k1, v1⟩ := p
    have h1 : strLt k1 k = true := h (k1, v1) (List.mem_cons_self _ _)
    have hne : ¬ k = k1 := by
      intro he
      rw [he, strLt_irrefl] at h1
      exact Bool.false_ne_true h1
    simp only [insertItem, strLt_asymm h1, Bool.false_eq_true, if_false, hne, ite_false,
      List.cons_append]
    rw [ih (fun p hp => h p (List.mem_cons_of_mem _ hp))]

theorem foldl_insertItem_ascending (f : String → Option Item) :
    ∀ (ids : List String) (acc : List (String × Item)),
      (∀ p ∈ acc, ∀ i ∈ ids, strLt p.1 i = true) →
      ids.Pairwise (fun a b => strLt a b = true) →
      ids.foldl (fun acc2 id =>
          match f id with
          | some it => insertItem id it acc2
          | none => acc2) acc
        = acc ++ ids.filterMap (fun id => (f id).map (fun it => (id, it))) := by
  intro ids
  induction ids with
  | nil => intro acc _ _; simp
  | cons i rest ih =>
    intro acc hacc hpw
    rcases List.pairwise_cons.mp hpw with ⟨hi, hrest⟩
    simp only [List.foldl_cons, List.filterMap_cons]
    cases hf : f i with
    | none =>
      simp only [hf]
      rw [ih acc (fun p hp j hj => hacc p hp j (List.mem_cons_of_mem _ hj)) hrest]
      simp
    | some it =>
      simp only [hf]
      rw [insertItem_append (fun p hp => hacc p hp i (List.mem_cons_self _ _))]
      rw [ih (acc ++ [(i, it)]) ?_ hrest]
      · simp
      · intro p hp j hj
        rcases List.mem_append.mp hp with hm | hm
        · exact hacc p hm j (List.mem_cons_of_mem _ hj)
        · simp at hm
          rw [hm]
          exact hi j hj

theorem mergedItems_eq_filterMap (base ours theirs : Store) :
    mergedItems base ours theirs
      = (allIds base ours theirs).filterMap (fun id =>
          (mergeResolve (lookupItem base.items id) (lookupItem ours.items id)
            (lookupItem theirs.items id)).map (fun it => (id, it))) := by
  unfold mergedItems
  rw [foldl_insertItem_ascending]
  · simp
  · intro p hp
    simp at hp
  · exact pairwise_sortedIdUnion _

theorem lookupItem_filterMap (f : String → Option Item) :
    ∀ (ids : List String), ids.Nodup → ∀ k : String,
      lookupItem (ids.filterMap (fun id => (f id).map (fun it => (id, it)))) k
        = if k ∈ ids then f k else none := by
  intro ids
  induction ids with
  | nil => intro _ k; simp [lookupItem]
  | cons i rest ih =>
    intro hnd k
    rcases List.nodup_cons.mp hnd with ⟨hni, hndr⟩
    simp only [List.filterMap_cons]
    by_cases hk : k = i
    · subst hk
      cases hf : f k with
      | none =>
        simp only [Option.map_none']
        rw [ih hndr k, if_neg hni]
        simp [hf]
      | some it =>
        simp only [Option.map_some']
        simp [lookupItem, hf]
    · have hik : ¬ i = k := fun he => hk he.symm
      cases hf : f i with
      | none =>
        simp only [Option.map_none']
        rw [ih hndr k]
        simp [hk]
      | some it =>
        simp only [Option.map_some']
        simp only [lookupItem, if_neg hik]
        rw [ih hndr k]
        simp [hk]

theorem lookupItem_mergedItems (base ours theirs : Store) (k : String) :
    lookupItem (mergedItems base ours theirs) k
      = mergeResolve (lookupItem base.items k) (lookupItem ours.items k)
          (lookupItem theirs.items k) := by
  rw [mergedItems_eq_filterMap]
  have hnd : (allIds base ours theirs).Nodup := nodup_sortedIdUnion _
  rw [lookupItem_filterMap _ _ hnd k]
  by_cases hk : k ∈ allIds base ours theirs
  · rw [if_pos (by exact hk)]
  · rw [if_neg (by exact hk)]
    have hnb : k ∉ base.items.map Prod.fst := by
      intro hm
      exact hk (mem_sortedIdUnion.mpr (by
        simp only [allIds, List.mem_append]
        exact Or.inl (Or.inl hm)))
    have hno : k ∉ ours.items.map Prod.fst := by
      intro hm
      exact hk (mem_sortedIdUnion.mpr (by
        simp only [allIds, List.mem_append]
        exact Or.inl (Or.inr hm)))
    have hnt : k ∉ theirs.items.map Prod.fst := by
      intro hm
      exact hk (mem_sortedIdUnion.mpr (by
        simp only [allIds, List.mem_append]
        exact Or.inr hm))
    rw [lookupItem_eq_none_iff.mpr hnb, lookupItem_eq_none_iff.mpr hno,
      lookupItem_eq_none_iff.mpr hnt]
    rfl

theorem pairwise_mergedItems (base ours theirs : Store) :
    (mergedItems base ours theirs).Pairwise (fun a b => strLt a.1 b.1 = true) := by
  rw [mergedItems_eq_filterMap]
  have h := pairwise_sortedIdUnion
    (storeKeys base ++ storeKeys ours ++ storeKeys theirs)
  have : ∀ (ids : List String), ids.Pairwise (fun a b => strLt a b = true) →
      (ids.filterMap (fun id =>
        (mergeResolve (lookupItem base.items id) (lookupItem ours.items id)
          (lookupItem theirs.items id)).map (fun it => (id, it)))).Pairwise
        (fun a b => strLt a.1 b.1 = true) := by
    intro ids
    induction ids with
    | nil => intro _; simp
    | cons i rest ih =>
      intro hpw
      rcases List.pairwise_cons.mp hpw with ⟨hi, hrest⟩
      simp only [List.filterMap_cons]
      cases hf : mergeResolve (lookupItem base.items i) (lookupItem ours.items i)
          (lookupItem theirs.items i) with
      | none => exact ih hrest
      | some it =>
        simp only [Option.map_some']
        refine List.pairwise_cons.mpr ⟨?_, ih hrest⟩
        intro p hp
        rcases List.mem_filterMap.mp hp with ⟨j, hj, hpj⟩
        cases hfj : mergeResolve (lookupItem base.items j) (lookupItem ours.items j)
            (lookupItem theirs.items j) with
        | none => rw [hfj] at hpj; simp at hpj
        | some itj =>
          rw [hfj] at hpj
          simp at hpj
          rw [← hpj]
          exact hi j hj
  exact this _ h

/-! Merge facts. -/

theorem mem_insertDepSorted {x : Dep} :
    ∀ {l : List Dep} {y : Dep}, y ∈ insertDepSorted x l ↔ y = x ∨ y ∈ l := by
  intro l
  induction l with
  | nil => intro y; simp [insertDepSorted]
  | cons z zs ih =>
    intro y
    simp only [insertDepSorted]
    by_cases h : depKeyLe x z = true
    · rw [if_pos h]
      simp only [List.mem_cons]
    · rw [if_neg h]
      simp only [List.mem_cons, ih]
      tauto

theorem mem_sortDeps {l : List Dep} {y : Dep} : y ∈ sortDeps l ↔ y ∈ l := by
  induction l with
  | nil => simp [sortDeps]
  | cons z zs ih =>
    show y ∈ insertDepSorted z (sortDeps zs) ↔ _
    rw [mem_insertDepSorted]
    simp [ih]

theorem mem_mergeOut_deps (base ours theirs : Store) (d : Dep) :
    d ∈ (mergeOut base ours theirs).deps ↔
      ((d ∈ ours.deps ∧
          mergeDepKeep base theirs (mergedItems base ours theirs) d = true)
        ∨ (d ∈ theirs.deps ∧
          mergeDepKeep base ours (mergedItems base ours theirs) d = true)) := by
  show d ∈ sortDeps _ ↔ _
  rw [mem_sortDeps, List.mem_dedup, List.mem_append, List.mem_filter, List.mem_filter]

theorem merge_items_self (b x : Item) : merge_items b x x = x := by
  cases x
  simp [merge_items]

theorem mergeResolve_self (b o : Option Item) : mergeResolve b o o = o := by
  cases b <;> cases o <;> simp [mergeResolve, merge_items_self]

theorem lookupItem_mem_iff_of_sorted {l : List (String × Item)}
    (h : l.Pairwise (fun a b => strLt a.1 b.1 = true)) {k : String} {v : Item} :
    (k, v) ∈ l ↔ lookupItem l k = some v := by
  constructor
  · exact lookupItem_of_mem (keys_nodup_of_sorted h)
  · exact lookupItem_eq_some_mem

theorem mergedItems_self {base s : Store} (hwf : s.WF) :
    mergedItems base s s = s.items := by
  have hasym : ∀ a b : String × Item, strLt a.1 b.1 = true → strLt b.1 a.1 = true → False := by
    intro a b h1 h2
    rw [strLt_asymm h1] at h2
    exact Bool.false_ne_true h2
  refine pairwise_ext hasym (pairwise_mergedItems base s s) hwf.sorted ?_
  intro x
  obtain ⟨k, v⟩ := x
  rw [lookupItem_mem_iff_of_sorted (pairwise_mergedItems base s s),
    lookupItem_mem_iff_of_sorted hwf.sorted, lookupItem_mergedItems, mergeResolve_self]

theorem contains_eq_true_iff {l : List Dep} {d : Dep} : l.contains d = true ↔ d ∈ l := by
  simp

/-- C4: merge_stores applied to an arbitrary base and the same snapshot s on both
sides returns s again: literally the same item map, and the same set of dependency
edges.  The hypotheses state that s is a Document: its map is in BTreeMap
representation (Store.WF) and, per the spec's Document invariants, every edge
endpoint references an existing item. -/
theorem c4_merge_idempotent (base s m : Store) (hwf : s.WF)
    (hed : ∀ d ∈ s.deps, containsKey s.items d.from_id = true ∧
      containsKey s.items d.to_id = true)
    (hm : merge_stores base s s = Except.ok m) :
    m.items = s.items ∧ (∀ d : Dep, d ∈ m.deps ↔ d ∈ s.deps) := by
  have hmeq : m = mergeOut base s s := by
    unfold merge_stores at hm
    exact (Except.ok.injEq _ _).mp hm.symm ▸ rfl
  subst hmeq
  have hitems : (mergeOut base s s).items = s.items := mergedItems_self hwf
  refine ⟨hitems, ?_⟩
  intro d
  rw [mem_mergeOut_deps]
  constructor
  · intro h
    rcases h with ⟨hd, _⟩ | ⟨hd, _⟩ <;> exact hd
  · intro hd
    left
    refine ⟨hd, ?_⟩
    unfold mergeDepKeep
    have h1 : s.deps.contains d = true := contains_eq_true_iff.mpr hd
    have h2 : containsKey (mergedItems base s s) d.from_id = true := by
      rw [show mergedItems base s s = s.items from hitems]
      exact (hed d hd).1
    have h3 : containsKey (mergedItems base s s) d.to_id = true := by
      rw [show mergedItems base s s = s.items from hitems]
      exact (hed d hd).2
    rw [h1, h2, h3]
    simp

/-- Concrete store used for the idempotence witness. -/
def c4item : Item :=
  { id := "lb-0001", title := "t", description := none, item_type := ItemType.task,
    status := Status.opened, priority := 2, claimed_by := none,
    created_at := 0, updated_at := 0 }

/-- Concrete snapshot with one item and one Blocks self-loop-free edge set. -/
def c4s : Store :=
  { items := [("lb-0001", c4item), ("lb-0002", { c4item with id := "lb-0002" })],
    deps := [Dep.mk "lb-0001" "lb-0002" DepType.blocks] }

/-- Witness for c4_merge_idempotent at a concrete base and snapshot. -/
theorem c4_witness :
    (mergeOut { items := [], deps := [] } c4s c4s).items = c4s.items ∧
      (∀ d : Dep, d ∈ (mergeOut { items := [], deps := [] } c4s c4s).deps ↔ d ∈ c4s.deps) := by
  refine c4_merge_idempotent { items := [], deps := [] } c4s _ ?_ ?_ rfl
  · constructor
    · decide
    · decide
  · decide

theorem lookupItem_mergeOut_all (base ours theirs : Store) {id : String} {bi oi ti : Item}
    (hb : lookupItem base.items id = some bi)
    (ho : lookupItem ours.items id = some oi)
    (ht : lookupItem theirs.items id = some ti) :
    lookupItem (mergeOut base ours theirs).items id = some (merge_items bi oi ti) := by
  show lookupItem (mergedItems base ours theirs) id = _
  rw [lookupItem_mergedItems, hb, ho, ht]
  rfl

/-- Base item of the literal field-merge scenario: title t, priority 2. -/
def c2base_item : Item :=
  { id := "lb-0001", title := "t", description := none, item_type := ItemType.task,
    status := Status.opened, priority := 2, claimed_by := none,
    created_at := 0, updated_at := 0 }

/-- Scenario base snapshot. -/
def c2base : Store := { items := [("lb-0001", c2base_item)], deps := [] }

/-- Scenario local snapshot: only the title changed, to t2. -/
def c2local : Store :=
  { items := [("lb-0001", { c2base_item with title := "t2" })], deps := [] }

/-- Scenario remote snapshot: only the priority changed, to 0. -/
def c2remote : Store :=
  { items := [("lb-0001", { c2base_item with priority := 0 })], deps := [] }

/-- C2: for an item present in base, local and remote, each field except claimant and
updated_at takes local's value when local diverged from base and remote's value
otherwise, and updated_at is the later of the two sides; in the literal scenario
(base title t priority 2, local retitles to t2, remote reprioritizes to 0) the merged
item has title t2 and priority 0. -/
theorem c2_field_merge :
    (∀ (base ours theirs m : Store) (id : String) (bi oi ti : Item),
      merge_stores base ours theirs = Except.ok m →
      lookupItem base.items id = some bi →
      lookupItem ours.items id = some oi →
      lookupItem theirs.items id = some ti →
      ∃ mi : Item, lookupItem m.items id = some mi ∧
        mi.title = (if oi.title ≠ bi.title then oi.title else ti.title) ∧
        mi.description =
          (if oi.description ≠ bi.description then oi.description else ti.description) ∧
        mi.item_type =
          (if oi.item_type ≠ bi.item_type then oi.item_type else ti.item_type) ∧
        mi.status = (if oi.status ≠ bi.status then oi.status else ti.status) ∧
        mi.priority = (if oi.priority ≠ bi.priority then oi.priority else ti.priority) ∧
        mi.updated_at = max oi.updated_at ti.updated_at)
    ∧ (∃ mi : Item,
        lookupItem (mergeOut c2base c2local c2remote).items "lb-0001" = some mi ∧
        mi.title = "t2" ∧ mi.priority = 0) := by
  constructor
  · intro base ours theirs m id bi oi ti hm hb ho ht
    have hmeq : m = mergeOut base ours theirs := by
      unfold merge_stores at hm
      exact (Except.ok.injEq _ _).mp hm.symm ▸ rfl
    subst hmeq
    refine ⟨merge_items bi oi ti, lookupItem_mergeOut_all base ours theirs hb ho ht,
      rfl, rfl, rfl, rfl, rfl, rfl⟩
  · exact ⟨{ c2base_item with title := "t2", priority := 0 }, by decide, rfl, rfl⟩

/-- Witness instantiating the universally quantified part of c2_field_merge on the
literal scenario snapshots. -/
theorem c2_witness :
    ∃ mi : Item, lookupItem (mergeOut c2base c2local c2remote).items "lb-0001" = some mi ∧
      mi.title = (if "t2" ≠ "t" then "t2" else "t") ∧
      mi.description = (if (none : Option String) ≠ none then none else none) ∧
      mi.item_type = (if ItemType.task ≠ ItemType.task then ItemType.task else ItemType.task) ∧
      mi.status = (if Status.opened ≠ Status.opened then Status.opened else Status.opened) ∧
      mi.priority = (if 2 ≠ 2 then 2 else 0) ∧
      mi.updated_at = max 0 0 :=
  c2_field_merge.1 c2base c2local c2remote (mergeOut c2base c2local c2remote)
    "lb-0001" c2base_item { c2base_item with title := "t2" }
    { c2base_item with priority := 0 } rfl rfl rfl rfl

/-- Base item of the concurrent-claim scenario: unclaimed in base. -/
def c3base : Store := { items := [("lb-0001", c2base_item)], deps := [] }

/-- Local side claims the item for alice. -/
def c3local : Store :=
  { items := [("lb-0001", { c2base_item with claimed_by := some "alice" })], deps := [] }

/-- Remote side claims the item for bob (and published first). -/
def c3remote : Store :=
  { items := [("lb-0001", { c2base_item with claimed_by := some "bob" })], deps := [] }

/-- C3: the merged claimant is remote's claimant whenever remote diverged from base on
that field, and local's otherwise; in particular when both sides claim an item that is
unclaimed in base, remote's claimant is recorded. -/
theorem c3_claimant_merge :
    (∀ (base ours theirs m : Store) (id : String) (bi oi ti : Item),
      merge_stores base ours theirs = Except.ok m →
      lookupItem base.items id = some bi →
      lookupItem ours.items id = some oi →
      lookupItem theirs.items id = some ti →
      ∃ mi : Item, lookupItem m.items id = some mi ∧
        mi.claimed_by =
          (if ti.claimed_by ≠ bi.claimed_by then ti.claimed_by else oi.claimed_by))
    ∧ (∀ (base ours theirs m : Store) (id : String) (bi oi ti : Item) (w : String),
      merge_stores base ours theirs = Except.ok m →
      lookupItem base.items id = some bi →
      lookupItem ours.items id = some oi →
      lookupItem theirs.items id = some ti →
      bi.claimed_by = none → ti.claimed_by = some w →
      ∃ mi : Item, lookupItem m.items id = some mi ∧ mi.claimed_by = some w) := by
  constructor
  · intro base ours theirs m id bi oi ti hm hb ho ht
    have hmeq : m = mergeOut base ours theirs := by
      unfold merge_stores at hm
      exact (Except.ok.injEq _ _).mp hm.symm ▸ rfl
    subst hmeq
    exact ⟨merge_items bi oi ti, lookupItem_mergeOut_all base ours theirs hb ho ht, rfl⟩
  · intro base ours theirs m id bi oi ti w hm hb ho ht hbase hth
    have hmeq : m = mergeOut base ours theirs := by
      unfold merge_stores at hm
      exact (Except.ok.injEq _ _).mp hm.symm ▸ rfl
    subst hmeq
    refine ⟨merge_items bi oi ti, lookupItem_mergeOut_all base ours theirs hb ho ht, ?_⟩
    show (if ti.claimed_by ≠ bi.claimed_by then ti.claimed_by else oi.claimed_by) = some w
    rw [hbase, hth]
    simp

/-- Witness instantiating c3_claimant_merge on the concurrent-claim scenario: bob
(remote) wins. -/
theorem c3_witness :
    ∃ mi : Item, lookupItem (mergeOut c3base c3local c3remote).items "lb-0001" = some mi ∧
      mi.claimed_by = some "bob" :=
  c3_claimant_merge.2 c3base c3local c3remote (mergeOut c3base c3local c3remote)
    "lb-0001" c2base_item { c2base_item with claimed_by := some "alice" }
    { c2base_item with claimed_by := some "bob" } "bob" rfl rfl rfl rfl rfl rfl

/-- C6 counterexample: the status token done neither parses to Closed nor normalizes
to Open on read; Status deserialization rejects it, refuting the claim that every
unknown token normalizes to Open. -/
theorem c6_unknown_errors :
    statusDeserialize "done" = Except.error "unknown status: done" ∧
      statusDeserialize "done" ≠ Except.ok Status.opened := by
  constructor
  · rfl
  · intro h
    rw [show statusDeserialize "done" = Except.error "unknown status: done" from rfl] at h
    exact Except.noConfusion h

/-- C6 amended: closed parses to Closed; open and exactly the three legacy tokens
in_progress, blocked and deferred normalize to Open; every other token is a parse
error rather than normalizing to Open. -/
theorem c6_status_parse_amended :
    statusDeserialize "open" = Except.ok Status.opened ∧
    statusDeserialize "in_progress" = Except.ok Status.opened ∧
    statusDeserialize "blocked" = Except.ok Status.opened ∧
    statusDeserialize "deferred" = Except.ok Status.opened ∧
    statusDeserialize "closed" = Except.ok Status.closed ∧
    (∀ s : String, s ≠ "open" → s ≠ "in_progress" → s ≠ "blocked" → s ≠ "deferred" →
      s ≠ "closed" → statusDeserialize s = Except.error ("unknown status: " ++ s)) := by
  refine ⟨rfl, rfl, rfl, rfl, rfl, ?_⟩
  intro s h1 h2 h3 h4 h5
  simp [statusDeserialize, h1, h2, h3, h4, h5]

/-- Witness for the amended C6 statement at a concrete unknown token. -/
theorem c6_witness :
    statusDeserialize "garbage" = Except.error ("unknown status: " ++ "garbage") :=
  c6_status_parse_amended.2.2.2.2.2 "garbage" (by decide) (by decide) (by decide)
    (by decide) (by decide)

/-! Resolution and deletion facts. -/

theorem charListIsPrefix_refl : ∀ l : List Char, charListIsPrefix l l = true := by
  intro l
  induction l with
  | nil => rfl
  | cons a as ih => simp [charListIsPrefix, ih]

theorem strIsPrefixOf_refl (s : String) : strIsPrefixOf s s = true :=
  charListIsPrefix_refl s.data

theorem resolve_id_mem {s : Store} {pre rid : String}
    (h : resolve_id s pre = Except.ok rid) : rid ∈ storeKeys s := by
  unfold resolve_id at h
  by_cases hc : containsKey s.items pre = true
  · rw [if_pos hc] at h
    obtain rfl : pre = rid := by
      injection h
    exact containsKey_iff.mp hc
  · rw [if_neg hc] at h
    revert h
    cases hm : (storeKeys s).filter (fun id => strIsPrefixOf pre id) with
    | nil => intro h; exact Except.noConfusion h
    | cons m rest =>
      cases rest with
      | nil =>
        intro h
        obtain rfl : m = rid := by injection h
        have := List.mem_filter.mp (hm ▸ List.mem_cons_self m [])
        exact this.1
      | cons m2 rest2 => intro h; exact Except.noConfusion h

/-- Store with a single item lb-aaaa, used for the C9 and C10 counterexamples. -/
def c9store : Store :=
  { items := [("lb-aaaa",
      { id := "lb-aaaa", title := "alpha", description := none,
        item_type := ItemType.task, status := Status.opened, priority := 2,
        claimed_by := none, created_at := 0, updated_at := 0 })],
    deps := [] }

/-- C9 counterexample: no item with id lb-a exists, yet delete_item does not fail
NotFound: the argument resolves as a unique prefix and the call deletes lb-aaaa. -/
theorem c9_prefix_delete_counterexample :
    lookupItem c9store.items "lb-a" = none ∧
      delete_item c9store "lb-a" = Except.ok { items := [], deps := [] } :=
  ⟨rfl, rfl⟩

/-- C9 amended: delete fails when the argument neither names an existing item nor is a
prefix of one, and on success it removes the item that the argument resolves to
together with every edge referencing it, leaving every other item binding and edge
unchanged. -/
theorem c9_delete_amended :
    (∀ (s : Store) (id : String),
      (storeKeys s).filter (fun k => strIsPrefixOf id k) = [] →
      ∃ e, delete_item s id = Except.error e)
    ∧ (∀ (s : Store) (id : String) (s2 : Store), s.WF →
      delete_item s id = Except.ok s2 →
      ∃ rid, resolve_id s id = Except.ok rid ∧
        s2.items = removeKey rid s.items ∧
        lookupItem s2.items rid = none ∧
        (∀ k : String, k ≠ rid → lookupItem s2.items k = lookupItem s.items k) ∧
        s2.deps = s.deps.filter (fun d => !(d.from_id == rid) && !(d.to_id == rid)) ∧
        (∀ d ∈ s2.deps, d.from_id ≠ rid ∧ d.to_id ≠ rid)) := by
  constructor
  · intro s id hfil
    have hnc : containsKey s.items id ≠ true := by
      intro hc
      have hidmem : id ∈ (storeKeys s).filter (fun k => strIsPrefixOf id k) :=
        List.mem_filter.mpr ⟨containsKey_iff.mp hc, strIsPrefixOf_refl id⟩
      rw [hfil] at hidmem
      exact absurd hidmem (List.not_mem_nil id)
    refine ⟨"no item matching '" ++ id ++ "'", ?_⟩
    unfold delete_item resolve_id
    rw [if_neg hnc, hfil]
  · intro s id s2 hwf hdel
    unfold delete_item at hdel
    split at hdel
    · exact Except.noConfusion hdel
    · next rid hres =>
      by_cases hc : containsKey s.items rid = true
      · rw [if_pos hc] at hdel
        injection hdel with h
        subst h
        refine ⟨rid, hres, rfl, ?_, ?_, rfl, ?_⟩
        · exact lookupItem_removeKey_self (keys_nodup_of_sorted hwf.sorted) rid
        · intro k hk
          exact lookupItem_removeKey_ne hk s.items
        · intro d hd
          have hmf := (List.mem_filter.mp hd).2
          simp only [Bool.and_eq_true, Bool.not_eq_true', beq_eq_false_iff_ne] at hmf
          exact hmf
      · rw [if_neg hc] at hdel
        exact Except.noConfusion hdel

/-- Witness instantiating the amended C9 statement: on the empty store every delete
fails, and the successful delete of the concrete counterexample store removes the
resolved item lb-aaaa and leaves no edge mentioning it. -/
theorem c9_witness :
    (∃ e, delete_item { items := [], deps := [] } "x" = Except.error e)
    ∧ (∃ rid, resolve_id c9store "lb-a" = Except.ok rid ∧
        ({ items := [], deps := [] } : Store).items = removeKey rid c9store.items ∧
        lookupItem ({ items := [], deps := [] } : Store).items rid = none ∧
        (∀ k : String, k ≠ rid →
          lookupItem ({ items := [], deps := [] } : Store).items k =
            lookupItem c9store.items k) ∧
        ({ items := [], deps := [] } : Store).deps =
          c9store.deps.filter (fun d => !(d.from_id == rid) && !(d.to_id == rid)) ∧
        (∀ d ∈ ({ items := [], deps := [] } : Store).deps,
          d.from_id ≠ rid ∧ d.to_id ≠ rid)) := by
  constructor
  · exact c9_delete_amended.1 { items := [], deps := [] } "x" rfl
  · exact c9_delete_amended.2 c9store "lb-a" { items := [], deps := [] }
      ⟨by decide, by decide⟩ rfl

/-- C10 counterexample: create_item returns an error (the parent prefix lb-a became
ambiguous once lb-abcd was inserted) while the store it was given has been changed:
the new item is already in the map.  Failure is not atomic. -/
theorem c10_nonatomic_counterexample :
    (create_item c9store "lb-abcd" "x" ItemType.task 2 none (some "lb-a") 0).1 =
      Except.error "ambiguous prefix 'lb-a'" ∧
    (create_item c9store "lb-abcd" "x" ItemType.task 2 none (some "lb-a") 0).2 ≠ c9store ∧
    containsKey
      (create_item c9store "lb-abcd" "x" ItemType.task 2 none (some "lb-a") 0).2.items
      "lb-abcd" = true := by
  refine ⟨rfl, ?_, rfl⟩
  intro h
  have h2 : containsKey c9store.items "lb-abcd" = true := by
    rw [← h]
    rfl
  exact absurd h2 (by decide)

/-- C10 amended: when create_item returns an error, no dependency edge has been
added, and the store is unchanged unless the error came from re-resolving the parent
prefix after the insertion (the new id having made that prefix ambiguous or captured
it exactly), in which case exactly the new item has been inserted. -/
theorem c10_create_error_amended (s : Store) (newId title : String) (ty : ItemType)
    (pr : Nat) (d : Option String) (p : Option String) (now : Int) (e : String)
    (herr : (create_item s newId title ty pr d p now).1 = Except.error e) :
    (create_item s newId title ty pr d p now).2.deps = s.deps ∧
    ((create_item s newId title ty pr d p now).2.items = s.items ∨
      (create_item s newId title ty pr d p now).2.items =
        insertItem newId (newItem newId title ty pr d now) s.items) := by
  cases p with
  | none => exact Except.noConfusion herr
  | some pid =>
    simp only [create_item] at herr ⊢
    cases hres : resolve_id s pid with
    | error e2 => exact ⟨rfl, Or.inl rfl⟩
    | ok resolved =>
      rw [hres] at herr
      by_cases hc : containsKey s.items resolved = true
      · simp only [hc, if_true] at herr ⊢
        cases hres2 : resolve_id (insertNew s newId title ty pr d now) pid with
        | error e3 => exact ⟨rfl, Or.inr rfl⟩
        | ok r2 =>
          rw [hres2] at herr
          exact Except.noConfusion herr
      · simp only [hc, if_false] at herr ⊢
        exact ⟨rfl, Or.inl rfl⟩

/-- Witness instantiating the amended C10 statement at the non-atomic concrete
input. -/
theorem c10_witness :
    (create_item c9store "lb-abcd" "x" ItemType.task 2 none (some "lb-a") 0).2.deps =
      c9store.deps ∧
    ((create_item c9store "lb-abcd" "x" ItemType.task 2 none (some "lb-a") 0).2.items =
        c9store.items ∨
      (create_item c9store "lb-abcd" "x" ItemType.task 2 none (some "lb-a") 0).2.items =
        insertItem "lb-abcd" (newItem "lb-abcd" "x" ItemType.task 2 none 0)
          c9store.items) :=
  c10_create_error_amended c9store "lb-abcd" "x" ItemType.task 2 none (some "lb-a") 0
    "ambiguous prefix 'lb-a'" rfl

/-! Close scenario (spec-modelled close_item). -/

/-- Result of a close step, or the empty store on error (only used to name the
intermediate stores of the literal scenario, each step is separately proved to be
ok). -/
def orEmpty (r : Except String Store) : Store :=
  match r with
  | Except.ok s => s
  | Except.error _ => { items := [], deps := [] }

/-- Scenario store after creating epic lb-e. -/
def c8s1 : Store :=
  (create_item { items := [], deps := [] } "lb-e" "my-epic" ItemType.epic 2 none none 0).2

/-- Scenario store after creating child lb-c1 under the epic. -/
def c8s2 : Store := (create_item c8s1 "lb-c1" "child1" ItemType.task 2 none (some "lb-e") 1).2

/-- Scenario store after creating child lb-c2 under the epic. -/
def c8s3 : Store := (create_item c8s2 "lb-c2" "child2" ItemType.task 2 none (some "lb-e") 2).2

/-- Scenario store after closing lb-c1. -/
def c8s4 : Store := orEmpty (close_item c8s3 "lb-c1" 11)

/-- Scenario store after closing lb-c2 as well. -/
def c8s5 : Store := orEmpty (close_item c8s4 "lb-c2" 13)

/-- Scenario store after finally closing the epic. -/
def c8s6 : Store := orEmpty (close_item c8s5 "lb-e" 14)

/-- C8: close fails with the open-children error exactly when some child is not
Closed, and otherwise closes the item, clearing the claimant and stamping the given
time; and the literal epic scenario runs as specified: close(E) fails, close(C1)
succeeds, close(E) still fails, close(C2) succeeds, close(E) then succeeds with no
claimant left on E.  close_item is modelled from the spec since its definition is not
under src. -/
theorem c8_close :
    (∀ (s : Store) (id : String) (now : Int) (it : Item),
      lookupItem s.items id = some it →
      ((∃ cid ∈ get_children s id, ∃ c, lookupItem s.items cid = some c ∧
          c.status ≠ Status.closed) →
        ∃ e, close_item s id now = Except.error e) ∧
      ((∀ cid ∈ get_children s id, ∀ c, lookupItem s.items cid = some c →
          c.status = Status.closed) →
        close_item s id now =
          Except.ok { s with items := insertItem id (closeUpdate it now) s.items }))
    ∧ (∃ e, close_item c8s3 "lb-e" 10 = Except.error e)
    ∧ close_item c8s3 "lb-c1" 11 = Except.ok c8s4
    ∧ (∃ e, close_item c8s4 "lb-e" 12 = Except.error e)
    ∧ close_item c8s4 "lb-c2" 13 = Except.ok c8s5
    ∧ close_item c8s5 "lb-e" 14 = Except.ok c8s6
    ∧ (∃ it : Item, lookupItem c8s6.items "lb-e" = some it ∧
        it.status = Status.closed ∧ it.claimed_by = none) := by
  refine ⟨?_, ⟨_, rfl⟩, rfl, ⟨_, rfl⟩, rfl, rfl, ⟨_, rfl, rfl, rfl⟩⟩
  intro s id now it hit
  have hany : ((get_children s id).any (fun cid =>
      match lookupItem s.items cid with
      | some c => c.status != Status.closed
      | none => false) = true)
      ↔ (∃ cid ∈ get_children s id, ∃ c, lookupItem s.items cid = some c ∧
          c.status ≠ Status.closed) := by
    rw [List.any_eq_true]
    constructor
    · intro h
      obtain ⟨cid, hcid, hf⟩ := h
      refine ⟨cid, hcid, ?_⟩
      revert hf
      cases hl : lookupItem s.items cid with
      | none => intro hf; exact absurd hf (by simp)
      | some c =>
        intro hf
        simp only [bne_iff_ne] at hf
        exact ⟨c, rfl, hf⟩
    · intro h
      obtain ⟨cid, hcid, c, hl, hne⟩ := h
      refine ⟨cid, hcid, ?_⟩
      rw [hl]
      simpa using hne
  have heq : close_item s id now =
      if ((get_children s id).any fun cid =>
          match lookupItem s.items cid with
          | some c => c.status != Status.closed
          | none => false) = true
        then Except.error "cannot close: item has open children"
        else Except.ok { s with items := insertItem id (closeUpdate it now) s.items } := by
    unfold close_item
    rw [hit]
  constructor
  · intro hopen
    rw [heq, if_pos (hany.mpr hopen)]
    exact ⟨_, rfl⟩
  · intro hclosed
    rw [heq, if_neg ?_]
    intro hab
    obtain ⟨cid, hcid, c, hl, hne⟩ := hany.mp hab
    exact hne (hclosed cid hcid c hl)

/-- Witness instantiating the general part of c8_close on the scenario store: the
epic with an open child cannot be closed. -/
theorem c8_witness : ∃ e, close_item c8s3 "lb-e" 10 = Except.error e :=
  (c8_close.1 c8s3 "lb-e" 10
      { id := "lb-e", title := "my-epic", description := none,
        item_type := ItemType.epic, status := Status.opened, priority := 2,
        claimed_by := none, created_at := 0, updated_at := 0 } rfl).1
    ⟨"lb-c1", by decide,
      { id := "lb-c1", title := "child1", description := none,
        item_type := ItemType.task, status := Status.opened, priority := 2,
        claimed_by := none, created_at := 1, updated_at := 1 }, rfl, by decide⟩

/-! Non-termination of the set_parent ancestor walk on malformed input. -/

/-- Malformed store for C5: items a, b, c with a pre-existing ParentOf cycle between
a and b that does not involve c. -/
def c5cyc : Store :=
  { items :=
      [("a", { id := "a", title := "a", description := none, item_type := ItemType.task,
               status := Status.opened, priority := 2, claimed_by := none,
               created_at := 0, updated_at := 0 }),
       ("b", { id := "b", title := "b", description := none, item_type := ItemType.task,
               status := Status.opened, priority := 2, claimed_by := none,
               created_at := 0, updated_at := 0 }),
       ("c", { id := "c", title := "c", description := none, item_type := ItemType.task,
               status := Status.opened, priority := 2, claimed_by := none,
               created_at := 0, updated_at := 0 })],
    deps := [Dep.mk "a" "b" DepType.parent, Dep.mk "b" "a" DepType.parent] }

theorem c5_walk_none :
    ∀ (fuel : Nat) (cur : String), cur = "a" ∨ cur = "b" →
      walkFuel c5cyc "c" cur fuel = none := by
  intro fuel
  induction fuel with
  | zero => intro cur _; rfl
  | succ n ih =>
    intro cur hcur
    rcases hcur with h | h
    · subst h
      show walkFuel c5cyc "c" "a" (n + 1) = none
      rw [show walkFuel c5cyc "c" "a" (n + 1)
          = walkFuel c5cyc "c" "b" n from by
        simp only [walkFuel, show get_parent c5cyc "a" = some "b" from rfl]
        rw [if_neg (by decide)]]
      exact ih "b" (Or.inr rfl)
    · subst h
      show walkFuel c5cyc "c" "b" (n + 1) = none
      rw [show walkFuel c5cyc "c" "b" (n + 1)
          = walkFuel c5cyc "c" "a" n from by
        simp only [walkFuel, show get_parent c5cyc "b" = some "a" from rfl]
        rw [if_neg (by decide)]]
      exact ih "a" (Or.inl rfl)

/-- C5: on the malformed store c5cyc the ancestor walk of set_parent(c, a) never
finishes, whatever iteration bound is allowed: the Rust loop (which carries no
visited-set) runs forever instead of terminating, refuting the claim that the walk is
guarded by a visited-set and terminates on every input. -/
theorem c5_set_parent_diverges :
    ∀ fuel : Nat, walkFuel c5cyc "c" "a" fuel = none ∧
      set_parent fuel c5cyc "c" "a" = none := by
  intro fuel
  have hw := c5_walk_none fuel "a" (Or.inl rfl)
  refine ⟨hw, ?_⟩
  have hres : set_parent fuel c5cyc "c" "a" = set_parent_resolved fuel c5cyc "c" "a" := by
    unfold set_parent
    rw [show resolve_id c5cyc "c" = Except.ok "c" from rfl,
      show resolve_id c5cyc "a" = Except.ok "a" from rfl]
  rw [hres]
  unfold set_parent_resolved
  rw [if_neg (by decide : ¬ ("c" : String) = "a"), hw]

/-! Ready items: membership and sort order. -/

/-- Order the claim asserts for the ready list: ascending priority, ties broken by
id. -/
def readyLex (a b : Item) : Prop :=
  a.priority < b.priority ∨ (a.priority = b.priority ∧ strLt a.id b.id = true)

theorem mem_insertByPriority {x : Item} :
    ∀ {l : List Item} {y : Item}, y ∈ insertByPriority x l ↔ y = x ∨ y ∈ l := by
  intro l
  induction l with
  | nil => intro y; simp [insertByPriority]
  | cons z zs ih =>
    intro y
    simp only [insertByPriority]
    by_cases h : x.priority ≤ z.priority
    · rw [if_pos h]
      simp only [List.mem_cons]
    · rw [if_neg h]
      simp only [List.mem_cons, ih]
      tauto

theorem pairwise_insertByPriority {x : Item} :
    ∀ {l : List Item}, l.Pairwise readyLex → (∀ y ∈ l, strLt x.id y.id = true) →
      (insertByPriority x l).Pairwise readyLex := by
  intro l
  induction l with
  | nil => intro _ _; simp [insertByPriority, List.pairwise_singleton]
  | cons z zs ih =>
    intro hpw hid
    rcases List.pairwise_cons.mp hpw with ⟨hz, hzs⟩
    simp only [insertByPriority]
    by_cases h : x.priority ≤ z.priority
    · rw [if_pos h]
      refine List.pairwise_cons.mpr ⟨?_, hpw⟩
      intro y hy
      rcases List.mem_cons.mp hy with he | hm
      · subst he
        rcases Nat.lt_or_ge x.priority y.priority with hlt | hge
        · exact Or.inl hlt
        · exact Or.inr ⟨Nat.le_antisymm h hge, hid y (List.mem_cons_self _ _)⟩
      · have hzy := hz y hm
        rcases hzy with hlt | ⟨heq, _⟩
        · exact Or.inl (Nat.lt_of_le_of_lt h hlt)
        · rcases Nat.lt_or_ge x.priority y.priority with hlt2 | hge2
          · exact Or.inl hlt2
          · refine Or.inr ⟨Nat.le_antisymm (heq ▸ h) hge2, hid y (List.mem_cons_of_mem _ hm)⟩
    · rw [if_neg h]
      refine List.pairwise_cons.mpr ⟨?_, ih hzs (fun y hy => hid y (List.mem_cons_of_mem _ hy))⟩
      intro y hy
      rcases mem_insertByPriority.mp hy with he | hm
      · subst he
        exact Or.inl (Nat.lt_of_not_le h)
      · exact hz y hm

theorem mem_isortByPriority {l : List Item} {y : Item} :
    y ∈ l.foldr insertByPriority [] ↔ y ∈ l := by
  induction l with
  | nil => simp
  | cons z zs ih =>
    show y ∈ insertByPriority z (zs.foldr insertByPriority []) ↔ _
    rw [mem_insertByPriority]
    simp [ih]

theorem pairwise_isortByPriority :
    ∀ {l : List Item}, l.Pairwise (fun a b => strLt a.id b.id = true) →
      (l.foldr insertByPriority []).Pairwise readyLex := by
  intro l
  induction l with
  | nil => intro _; simp
  | cons z zs ih =>
    intro hpw
    rcases List.pairwise_cons.mp hpw with ⟨hz, hzs⟩
    show (insertByPriority z (zs.foldr insertByPriority [])).Pairwise readyLex
    refine pairwise_insertByPriority (ih hzs) ?_
    intro y hy
    exact hz y (mem_isortByPriority.mp hy)

/-- C7: ready_items returns exactly the open, unclaimed items all of whose
Blocks-predecessors exist and are Closed (so no Closed or claimed item and no item
with a non-Closed blocker ever appears), sorted ascending by priority with ties
broken by id. -/
theorem c7_ready_items (s : Store) (hwf : s.WF) :
    (∀ it : Item, it ∈ ready_items s ↔
      (it ∈ itemValues s ∧ it.status = Status.opened ∧ it.claimed_by = none ∧
        ∀ bid ∈ get_blockers s it.id,
          ∃ b, lookupItem s.items bid = some b ∧ b.status = Status.closed))
    ∧ (ready_items s).Pairwise readyLex := by
  have hmemfil : ∀ it : Item, it ∈ readyFilter s ↔
      (it ∈ itemValues s ∧ it.status = Status.opened ∧ it.claimed_by = none ∧
        ∀ bid ∈ get_blockers s it.id,
          ∃ b, lookupItem s.items bid = some b ∧ b.status = Status.closed) := by
    intro it
    unfold readyFilter
    rw [List.mem_filter]
    constructor
    · intro h
      obtain ⟨hm, hcond⟩ := h
      simp only [Bool.and_eq_true, beq_iff_eq, List.all_eq_true] at hcond
      obtain ⟨⟨hst, hcl⟩, hall⟩ := hcond
      refine ⟨hm, hst, hcl, ?_⟩
      intro bid hbid
      have hb := hall bid hbid
      revert hb
      cases hl : lookupItem s.items bid with
      | none => intro hb; exact absurd hb (by simp)
      | some b =>
        intro hb
        simp only [beq_iff_eq] at hb
        exact ⟨b, rfl, hb⟩
    · intro h
      obtain ⟨hm, hst, hcl, hall⟩ := h
      refine ⟨hm, ?_⟩
      simp only [Bool.and_eq_true, beq_iff_eq, List.all_eq_true]
      refine ⟨⟨hst, hcl⟩, ?_⟩
      intro bid hbid
      obtain ⟨b, hl, hbs⟩ := hall bid hbid
      rw [hl]
      simpa using hbs
  constructor
  · intro it
    show it ∈ (readyFilter s).foldr insertByPriority [] ↔ _
    rw [mem_isortByPriority]
    exact hmemfil it
  · show ((readyFilter s).foldr insertByPriority []).Pairwise readyLex
    refine pairwise_isortByPriority ?_
    have hvals : (itemValues s).Pairwise (fun a b => strLt a.id b.id = true) := by
      unfold itemValues
      rw [List.pairwise_map]
      refine hwf.sorted.imp_of_mem ?_
      intro a b ha hb hab
      rw [hwf.idMatch a ha, hwf.idMatch b hb]
      exact hab
    exact hvals.filter _

/-- Concrete store for the ready-items witness: three open unclaimed items with a
priority tie between ids a and b. -/
def c7store : Store :=
  { items :=
      [("a", { id := "a", title := "a", description := none, item_type := ItemType.task,
               status := Status.opened, priority := 1, claimed_by := none,
               created_at := 0, updated_at := 0 }),
       ("b", { id := "b", title := "b", description := none, item_type := ItemType.task,
               status := Status.opened, priority := 1, claimed_by := none,
               created_at := 0, updated_at := 0 }),
       ("c", { id := "c", title := "c", description := none, item_type := ItemType.task,
               status := Status.opened, priority := 0, claimed_by := none,
               created_at := 0, updated_at := 0 })],
    deps := [] }

/-- Witness instantiating the sortedness half of c7_ready_items on a concrete store
with a priority tie. -/
theorem c7_witness : (ready_items c7store).Pairwise readyLex :=
  (c7_ready_items c7store ⟨by decide, by decide⟩).2

/-! Graph invariants: preservation by the mutation operations. -/

/-- Bundled structural invariants of spec section 3: edges reference existing items,
at most one ParentOf edge per item, and no item is its own ParentOf ancestor. -/
def GraphInv (s : Store) : Prop :=
  edgesValid s ∧ singleParent s ∧ forestAcyclic s

theorem get_parent_some {s : Store} {x y : String} (h : get_parent s x = some y) :
    parentStep s x y := by
  unfold get_parent at h
  cases hf : s.deps.find? (fun d => d.dep_type == DepType.parent && d.from_id == x) with
  | none => rw [hf] at h; exact Option.noConfusion h
  | some d =>
    rw [hf] at h
    have hmem := List.mem_of_find?_eq_some hf
    have hpred := List.find?_some hf
    simp only [Bool.and_eq_true, beq_iff_eq] at hpred
    have hy : d.to_id = y := by
      simpa using h
    have hd : d = Dep.mk x y DepType.parent := by
      obtain ⟨ht, hfr⟩ := hpred
      cases d
      simp_all
    rw [hd] at hmem
    exact hmem

theorem get_parent_none {s : Store} {x : String} (h : get_parent s x = none) :
    ∀ y, ¬ parentStep s x y := by
  intro y hy
  unfold get_parent at h
  cases hf : s.deps.find? (fun d => d.dep_type == DepType.parent && d.from_id == x) with
  | some d => rw [hf] at h; exact Option.noConfusion h
  | none =>
    have := List.find?_eq_none.mp hf (Dep.mk x y DepType.parent) hy
    simp at this

theorem parentStep_unique {s : Store} (hsp : singleParent s) {x y z : String}
    (hxy : parentStep s x y) (hz : get_parent s x = some z) : y = z := by
  unfold get_parent at hz
  cases hf : s.deps.find? (fun d => d.dep_type == DepType.parent && d.from_id == x) with
  | none => rw [hf] at hz; exact Option.noConfusion hz
  | some d =>
    rw [hf] at hz
    have hmem := List.mem_of_find?_eq_some hf
    have hpred := List.find?_some hf
    simp only [Bool.and_eq_true, beq_iff_eq] at hpred
    have heqd := hsp (Dep.mk x y DepType.parent) hxy d hmem rfl hpred.1 (by
      simp [hpred.2])
    have hz2 : d.to_id = z := by simpa using hz
    rw [← heqd] at hz2
    simpa using hz2

/-- Soundness of the ancestor walk on a store with at most one parent per item: if
the walk starting at cur finishes with ok, the child is not reachable from cur
through ParentOf steps. -/
theorem walk_sound {s : Store} {c0 : String} (hsp : singleParent s) :
    ∀ (n : Nat) (cur : String), cur ≠ c0 →
      walkFuel s c0 cur n = some (Except.ok ()) →
      ∀ y, Relation.ReflTransGen (parentStep s) cur y → y ≠ c0 := by
  intro n
  induction n with
  | zero => intro cur _ hw; exact absurd hw (by simp [walkFuel])
  | succ m ih =>
    intro cur hcur hw y hy
    rw [show walkFuel s c0 cur (m + 1)
        = (match get_parent s cur with
          | none => some (Except.ok ())
          | some anc =>
            if anc = c0 then
              some (Except.error "cycle detected: would create circular parent chain")
            else walkFuel s c0 anc m) from rfl] at hw
    cases hg : get_parent s cur with
    | none =>
      rcases hy.cases_head with he | ⟨z, hstep, _⟩
      · rw [← he]; exact hcur
      · exact absurd hstep (get_parent_none hg z)
    | some anc =>
      rw [hg] at hw
      have hw2 : (if anc = c0 then
            some (Except.error "cycle detected: would create circular parent chain")
          else walkFuel s c0 anc m) = some (Except.ok ()) := hw
      by_cases hanc : anc = c0
      · rw [if_pos hanc] at hw2
        exact absurd hw2 (by simp)
      · rw [if_neg hanc] at hw2
        rcases hy.cases_head with he | ⟨z, hstep, htail⟩
        · rw [← he]; exact hcur
        · have hz : z = anc := parentStep_unique hsp hstep hg
          subst hz
          exact ih _ hanc hw2 y htail

/-- Deps of the store set_parent builds on success. -/
def reparentDeps (s : Store) (rc rp : String) : List Dep :=
  (s.deps.filter (fun d => !(d.from_id == rc && d.dep_type == DepType.parent)))
    ++ [Dep.mk rc rp DepType.parent]

theorem set_parent_ok {fuel : Nat} {s : Store} {c p : String} {s2 : Store}
    (h : set_parent fuel s c p = some (Except.ok s2)) :
    ∃ rc rp, resolve_id s c = Except.ok rc ∧ resolve_id s p = Except.ok rp ∧
      rc ≠ rp ∧ walkFuel s rc rp fuel = some (Except.ok ()) ∧
      s2 = { s with deps := reparentDeps s rc rp } := by
  unfold set_parent at h
  split at h
  · exact absurd h (by simp)
  · next rc hrc =>
    split at h
    · exact absurd h (by simp)
    · next rp hrp =>
      unfold set_parent_resolved at h
      split at h
      · exact absurd h (by simp)
      · next hne =>
        split at h
        · exact Option.noConfusion h
        · next e heq =>
          exact absurd h (by simp)
        · next heq =>
          refine ⟨rc, rp, hrc, hrp, hne, heq, ?_⟩
          have h2 := h
          simp only [Option.some.injEq, Except.ok.injEq] at h2
          exact h2.symm

theorem parentStep_reparent {s : Store} {rc rp : String} {x y : String} :
    parentStep { s with deps := reparentDeps s rc rp } x y
      ↔ ((x ≠ rc ∧ parentStep s x y) ∨ (x = rc ∧ y = rp)) := by
  unfold parentStep reparentDeps
  simp only [List.mem_append, List.mem_filter, List.mem_singleton]
  constructor
  · intro h
    rcases h with ⟨hm, hcond⟩ | heq
    · simp only [Bool.and_eq_true, Bool.not_eq_true', Bool.and_eq_false_iff,
        beq_eq_false_iff_ne] at hcond
      rcases hcond with hfr | hty
      · exact Or.inl ⟨hfr, hm⟩
      · exact absurd (rfl : DepType.parent = DepType.parent) hty
    · refine Or.inr ?_
      injection heq with h1 h2 h3
      exact ⟨h1, h2⟩
  · intro h
    rcases h with ⟨hne, hm⟩ | ⟨h1, h2⟩
    · refine Or.inl ⟨hm, ?_⟩
      simp [hne]
    · subst h1; subst h2
      exact Or.inr rfl

theorem reparent_path_decomp {s : Store} {rc rp : String} {x y : String}
    (h : Relation.ReflTransGen
      (parentStep { s with deps := reparentDeps s rc rp }) x y) :
    Relation.ReflTransGen (parentStep s) x y
      ∨ (Relation.ReflTransGen (parentStep s) x rc ∧
        Relation.ReflTransGen (parentStep { s with deps := reparentDeps s rc rp }) rp y) := by
  induction h using Relation.ReflTransGen.head_induction_on with
  | refl => exact Or.inl Relation.ReflTransGen.refl
  | head hstep htail ih =>
    rename_i a b
    rcases parentStep_reparent.mp hstep with ⟨hne, hs⟩ | ⟨h1, h2⟩
    · rcases ih with hp | ⟨hp1, hp2⟩
      · exact Or.inl (Relation.ReflTransGen.head hs hp)
      · exact Or.inr ⟨Relation.ReflTransGen.head hs hp1, hp2⟩
    · subst h1
      subst h2
      exact Or.inr ⟨Relation.ReflTransGen.refl, htail⟩

/-- set_parent preserves the structural invariants: on success the new store is
well-formed, its edges reference existing items, each item still has at most one
parent, and the ParentOf relation is still acyclic. -/
theorem set_parent_preserves {fuel : Nat} {s : Store} {c p : String} {s2 : Store}
    (hwf : s.WF) (hinv : GraphInv s)
    (h : set_parent fuel s c p = some (Except.ok s2)) :
    s2.WF ∧ GraphInv s2 := by
  obtain ⟨hev, hsp, hforest⟩ := hinv
  obtain ⟨rc, rp, hrc, hrp, hne, hwalk, hs2⟩ := set_parent_ok h
  subst hs2
  have hsound : ∀ y, Relation.ReflTransGen (parentStep s) rp y → y ≠ rc :=
    walk_sound hsp fuel rp (fun he => hne he.symm) hwalk
  refine ⟨⟨hwf.sorted, hwf.idMatch⟩, ?_, ?_, ?_⟩
  · intro d hd
    unfold reparentDeps at hd
    rcases List.mem_append.mp hd with hm | hm
    · exact hev d (List.mem_filter.mp hm).1
    · rw [List.mem_singleton] at hm
      subst hm
      constructor
      · exact containsKey_iff.mpr (resolve_id_mem hrc)
      · exact containsKey_iff.mpr (resolve_id_mem hrp)
  · intro d1 hd1 d2 hd2 ht1 ht2 hfr
    unfold reparentDeps at hd1 hd2
    rcases List.mem_append.mp hd1 with hm1 | hm1 <;>
      rcases List.mem_append.mp hd2 with hm2 | hm2
    · exact hsp d1 (List.mem_filter.mp hm1).1 d2 (List.mem_filter.mp hm2).1 ht1 ht2 hfr
    · exfalso
      rw [List.mem_singleton] at hm2
      have hc1 := (List.mem_filter.mp hm1).2
      simp only [Bool.not_eq_true', Bool.and_eq_false_iff, beq_eq_false_iff_ne] at hc1
      rcases hc1 with hb | hb
      · exact hb (hfr.trans (by rw [hm2]))
      · exact hb ht1
    · exfalso
      rw [List.mem_singleton] at hm1
      have hc2 := (List.mem_filter.mp hm2).2
      simp only [Bool.not_eq_true', Bool.and_eq_false_iff, beq_eq_false_iff_ne] at hc2
      rcases hc2 with hb | hb
      · exact hb (hfr.symm.trans (by rw [hm1]))
      · exact hb ht2
    · rw [List.mem_singleton] at hm1 hm2
      rw [hm1, hm2]
  · intro x hx
    rcases Relation.TransGen.head'_iff.mp hx with ⟨z, hstep, htail⟩
    have hEnd : ∀ w, Relation.ReflTransGen
        (parentStep { s with deps := reparentDeps s rc rp }) rp w → w ≠ rc := by
      intro w hw
      rcases reparent_path_decomp hw with hp | ⟨hp1, _⟩
      · exact hsound w hp
      · exact absurd hp1 (fun hr => hsound rc hr rfl)
    rcases parentStep_reparent.mp hstep with ⟨hxne, hxs⟩ | ⟨h1, h2⟩
    · rcases reparent_path_decomp htail with hp | ⟨hp1, hp2⟩
      · exact hforest x (Relation.TransGen.head' hxs hp)
      · have hxrc : Relation.ReflTransGen (parentStep s) x rc :=
          Relation.ReflTransGen.head hxs hp1
        rcases reparent_path_decomp hp2 with hq | ⟨hq1, _⟩
        · have : Relation.ReflTransGen (parentStep s) rp rc := hq.trans hxrc
          exact hsound rc this rfl
        · exact hsound rc hq1 rfl
    · subst h1
      subst h2
      exact hEnd x htail rfl

theorem containsKey_insertItem_of {l : List (String × Item)} {k k2 : String} {v : Item}
    (h : containsKey l k2 = true) : containsKey (insertItem k v l) k2 = true := by
  unfold containsKey at h ⊢
  rw [lookupItem_insertItem]
  by_cases he : k = k2
  · rw [if_pos he]; rfl
  · rw [if_neg he]; exact h

theorem containsKey_insertItem_self {l : List (String × Item)} {k : String} {v : Item} :
    containsKey (insertItem k v l) k = true := by
  unfold containsKey
  rw [lookupItem_insertItem, if_pos rfl]
  rfl

theorem delete_preserves {s : Store} {id : String} {s2 : Store}
    (hwf : s.WF) (hinv : GraphInv s) (h : delete_item s id = Except.ok s2) :
    s2.WF ∧ GraphInv s2 := by
  obtain ⟨hev, hsp, hforest⟩ := hinv
  unfold delete_item at h
  split at h
  · exact Except.noConfusion h
  · next rid hres =>
    by_cases hc : containsKey s.items rid = true
    · rw [if_pos hc] at h
      injection h with h
      subst h
      have hsub : ∀ d : Dep,
          d ∈ (s.deps.filter (fun d => !(d.from_id == rid) && !(d.to_id == rid))) →
          d ∈ s.deps ∧ d.from_id ≠ rid ∧ d.to_id ≠ rid := by
        intro d hd
        obtain ⟨hm, hcond⟩ := List.mem_filter.mp hd
        simp only [Bool.and_eq_true, Bool.not_eq_true', beq_eq_false_iff_ne] at hcond
        exact ⟨hm, hcond⟩
      refine ⟨⟨pairwise_removeKey hwf.sorted, ?_⟩, ?_, ?_, ?_⟩
      · intro q hq
        exact hwf.idMatch q ((removeKey_sublist rid s.items).subset hq)
      · intro d hd
        obtain ⟨hm, hfr, hto⟩ := hsub d hd
        obtain ⟨h1, h2⟩ := hev d hm
        constructor
        · show (lookupItem (removeKey rid s.items) d.from_id).isSome = true
          rw [lookupItem_removeKey_ne hfr]
          exact h1
        · show (lookupItem (removeKey rid s.items) d.to_id).isSome = true
          rw [lookupItem_removeKey_ne hto]
          exact h2
      · intro d1 hd1 d2 hd2 ht1 ht2 hfr
        exact hsp d1 (hsub d1 hd1).1 d2 (hsub d2 hd2).1 ht1 ht2 hfr
      · intro x hx
        refine hforest x (Relation.TransGen.mono ?_ hx)
        intro a b hab
        exact (hsub _ hab).1
    · rw [if_neg hc] at h
      exact Except.noConfusion h

theorem add_blocking_preserves {s : Store} {b1 b2 : String} {s2 : Store}
    (hwf : s.WF) (hinv : GraphInv s) (h : add_blocking_dep s b1 b2 = Except.ok s2) :
    s2.WF ∧ GraphInv s2 := by
  obtain ⟨hev, hsp, hforest⟩ := hinv
  unfold add_blocking_dep at h
  split at h
  · exact Except.noConfusion h
  · next r1 hr1 =>
    split at h
    · exact Except.noConfusion h
    · next r2 hr2 =>
      by_cases he : r1 = r2
      · rw [if_pos he] at h
        exact Except.noConfusion h
      · rw [if_neg he] at h
        by_cases hdup : s.deps.contains (Dep.mk r1 r2 DepType.blocks) = true
        · rw [if_pos hdup] at h
          exact Except.noConfusion h
        · rw [if_neg hdup] at h
          injection h with h
          subst h
          have hstep : ∀ x y : String,
              parentStep { s with deps := s.deps ++ [Dep.mk r1 r2 DepType.blocks] } x y
                ↔ parentStep s x y := by
            intro x y
            unfold parentStep
            simp only [List.mem_append, List.mem_singleton]
            constructor
            · intro hm
              rcases hm with hm | hm
              · exact hm
              · exact absurd (by injection hm) (by simp)
            · exact fun hm => Or.inl hm
          refine ⟨⟨hwf.sorted, hwf.idMatch⟩, ?_, ?_, ?_⟩
          · intro d hd
            rcases List.mem_append.mp hd with hm | hm
            · exact hev d hm
            · rw [List.mem_singleton] at hm
              subst hm
              exact ⟨containsKey_iff.mpr (resolve_id_mem hr1),
                containsKey_iff.mpr (resolve_id_mem hr2)⟩
          · intro d1 hd1 d2 hd2 ht1 ht2 hfr
            have hold : ∀ d : Dep, d ∈ s.deps ++ [Dep.mk r1 r2 DepType.blocks] →
                d.dep_type = DepType.parent → d ∈ s.deps := by
              intro d hd ht
              rcases List.mem_append.mp hd with hm | hm
              · exact hm
              · rw [List.mem_singleton] at hm
                subst hm
                exact absurd ht (by simp)
            exact hsp d1 (hold d1 hd1 ht1) d2 (hold d2 hd2 ht2) ht1 ht2 hfr
          · intro x hx
            refine hforest x (Relation.TransGen.mono ?_ hx)
            intro a b hab
            exact (hstep a b).mp hab

theorem remove_dep_preserves {s : Store} {f1 f2 : String} {s2 : Store}
    (hwf : s.WF) (hinv : GraphInv s) (h : remove_dep s f1 f2 = Except.ok s2) :
    s2.WF ∧ GraphInv s2 := by
  obtain ⟨hev, hsp, hforest⟩ := hinv
  unfold remove_dep at h
  split at h
  · exact Except.noConfusion h
  · next r1 hr1 =>
    split at h
    · exact Except.noConfusion h
    · next r2 hr2 =>
      by_cases hlen : (s.deps.filter
          (fun d => !(d.from_id == r1 && d.to_id == r2))).length = s.deps.length
      · rw [if_pos hlen] at h
        exact Except.noConfusion h
      · rw [if_neg hlen] at h
        injection h with h
        subst h
        have hsub : ∀ d : Dep,
            d ∈ s.deps.filter (fun d => !(d.from_id == r1 && d.to_id == r2)) →
            d ∈ s.deps := fun d hd => (List.mem_filter.mp hd).1
        refine ⟨⟨hwf.sorted, hwf.idMatch⟩, ?_, ?_, ?_⟩
        · intro d hd
          exact hev d (hsub d hd)
        · intro d1 hd1 d2 hd2 ht1 ht2 hfr
          exact hsp d1 (hsub d1 hd1) d2 (hsub d2 hd2) ht1 ht2 hfr
        · intro x hx
          refine hforest x (Relation.TransGen.mono ?_ hx)
          intro a b hab
          exact hsub _ hab

theorem close_preserves {s : Store} {id : String} {now : Int} {s2 : Store}
    (hwf : s.WF) (hinv : GraphInv s) (h : close_item s id now = Except.ok s2) :
    s2.WF ∧ GraphInv s2 := by
  obtain ⟨hev, hsp, hforest⟩ := hinv
  unfold close_item at h
  split at h
  · exact Except.noConfusion h
  · next it hit =>
    split at h
    · exact Except.noConfusion h
    · injection h with h
      subst h
      have hidit : it.id = id := hwf.idMatch (id, it) (lookupItem_eq_some_mem hit)
      refine ⟨⟨pairwise_insertItem hwf.sorted, ?_⟩, ?_, ?_, ?_⟩
      · intro q hq
        rcases mem_insertItem_elim hq with he | hm
        · subst he
          show (closeUpdate it now).id = id
          unfold closeUpdate
          simpa using hidit
        · exact hwf.idMatch q hm
      · intro d hd
        obtain ⟨h1, h2⟩ := hev d hd
        exact ⟨containsKey_insertItem_of h1, containsKey_insertItem_of h2⟩
      · exact hsp
      · exact hforest

theorem create_ok {s : Store} {newId title : String} {ty : ItemType} {pr : Nat}
    {d : Option String} {p : Option String} {now : Int} {rid : String} {s2 : Store}
    (h : create_item s newId title ty pr d p now = (Except.ok rid, s2)) :
    rid = newId ∧
      (s2 = insertNew s newId title ty pr d now ∨
        ∃ r2, containsKey (insertNew s newId title ty pr d now).items r2 = true ∧
          s2 = { items := (insertNew s newId title ty pr d now).items,
                 deps := s.deps ++ [Dep.mk newId r2 DepType.parent] }) := by
  cases p with
  | none =>
    simp only [create_item] at h
    injection h with h1 h2
    injection h1 with h1
    exact ⟨h1.symm, Or.inl h2.symm⟩
  | some pid =>
    simp only [create_item] at h
    split at h
    · exact absurd (congrArg Prod.fst h) (by simp)
    · next resolved hres =>
      by_cases hc : containsKey s.items resolved = true
      · rw [if_pos hc] at h
        split at h
        · exact absurd (congrArg Prod.fst h) (by simp)
        · next r2 hres2 =>
          injection h with h1 h2
          injection h1 with h1
          refine ⟨h1.symm, Or.inr ⟨r2, containsKey_iff.mpr (resolve_id_mem hres2), h2.symm⟩⟩
      · rw [if_neg hc] at h
        exact absurd (congrArg Prod.fst h) (by simp)

theorem create_preserves {s : Store} {newId title : String} {ty : ItemType} {pr : Nat}
    {d : Option String} {p : Option String} {now : Int} {rid : String} {s2 : Store}
    (hwf : s.WF) (hinv : GraphInv s)
    (hfresh : containsKey s.items newId = false)
    (h : create_item s newId title ty pr d p now = (Except.ok rid, s2)) :
    s2.WF ∧ edgesValid s2 ∧ singleParent s2 := by
  obtain ⟨hev, hsp, hforest⟩ := hinv
  obtain ⟨hrid, hcase⟩ := create_ok h
  have hwf1 : (insertNew s newId title ty pr d now).WF := by
    refine ⟨pairwise_insertItem hwf.sorted, ?_⟩
    intro q hq
    rcases mem_insertItem_elim hq with he | hm
    · subst he; rfl
    · exact hwf.idMatch q hm
  have holdfrom : ∀ dep : Dep, dep ∈ s.deps → dep.from_id ≠ newId := by
    intro dep hdep he
    have h1 := (hev dep hdep).1
    rw [he] at h1
    rw [h1] at hfresh
    exact Bool.noConfusion hfresh
  rcases hcase with hs2 | ⟨r2, hr2, hs2⟩
  · subst hs2
    refine ⟨hwf1, ?_, ?_⟩
    · intro dep hdep
      obtain ⟨h1, h2⟩ := hev dep hdep
      exact ⟨containsKey_insertItem_of h1, containsKey_insertItem_of h2⟩
    · exact hsp
  · subst hs2
    refine ⟨⟨hwf1.sorted, hwf1.idMatch⟩, ?_, ?_⟩
    · intro dep hdep
      rcases List.mem_append.mp hdep with hm | hm
      · obtain ⟨h1, h2⟩ := hev dep hm
        exact ⟨containsKey_insertItem_of h1, containsKey_insertItem_of h2⟩
      · rw [List.mem_singleton] at hm
        subst hm
        exact ⟨containsKey_insertItem_self, hr2⟩
    · intro d1 hd1 d2 hd2 ht1 ht2 hfr
      rcases List.mem_append.mp hd1 with hm1 | hm1 <;>
        rcases List.mem_append.mp hd2 with hm2 | hm2
      · exact hsp d1 hm1 d2 hm2 ht1 ht2 hfr
      · exfalso
        rw [List.mem_singleton] at hm2
        exact holdfrom d1 hm1 (hfr.trans (by rw [hm2]))
      · exfalso
        rw [List.mem_singleton] at hm1
        exact holdfrom d2 hm2 (hfr.symm.trans (by rw [hm1]))
      · rw [List.mem_singleton] at hm1 hm2
        rw [hm1, hm2]

theorem mergeOut_edgesValid (base ours theirs : Store) :
    edgesValid (mergeOut base ours theirs) := by
  intro d hd
  rcases (mem_mergeOut_deps base ours theirs d).mp hd with ⟨_, hk⟩ | ⟨_, hk⟩ <;>
  · unfold mergeDepKeep at hk
    simp only [Bool.and_eq_true] at hk
    exact ⟨hk.1.2, hk.2⟩

theorem mergeOut_WF {base ours theirs : Store}
    (hb : base.WF) (ho : ours.WF) (ht : theirs.WF) :
    (mergeOut base ours theirs).WF := by
  refine ⟨pairwise_mergedItems base ours theirs, ?_⟩
  intro q hq
  obtain ⟨k, it⟩ := q
  have hl : lookupItem (mergedItems base ours theirs) k = some it :=
    lookupItem_of_mem (keys_nodup_of_sorted (pairwise_mergedItems base ours theirs)) hq
  rw [lookupItem_mergedItems] at hl
  have hid : ∀ (st : Store), st.WF → ∀ v : Item,
      lookupItem st.items k = some v → v.id = k := by
    intro st hst v hv
    exact hst.idMatch (k, v) (lookupItem_eq_some_mem hv)
  show it.id = k
  revert hl
  cases hbl : lookupItem base.items k with
  | none =>
    cases hol : lookupItem ours.items k with
    | none =>
      cases htl : lookupItem theirs.items k with
      | none => intro hl; exact absurd hl (by simp [mergeResolve])
      | some tv =>
        intro hl
        have : tv = it := by simpa [mergeResolve] using hl
        rw [← this]
        exact hid theirs ht tv htl
    | some ov =>
      cases htl : lookupItem theirs.items k with
      | none =>
        intro hl
        have : ov = it := by simpa [mergeResolve] using hl
        rw [← this]
        exact hid ours ho ov hol
      | some tv =>
        intro hl
        have : tv = it := by simpa [mergeResolve] using hl
        rw [← this]
        exact hid theirs ht tv htl
  | some bv =>
    cases hol : lookupItem ours.items k with
    | none => intro hl; exact absurd hl (by cases htl : lookupItem theirs.items k <;> simp [mergeResolve])
    | some ov =>
      cases htl : lookupItem theirs.items k with
      | none => intro hl; exact absurd hl (by simp [mergeResolve])
      | some tv =>
        intro hl
        have : merge_items bv ov tv = it := by simpa [mergeResolve] using hl
        rw [← this]
        show ov.id = k
        exact hid ours ho ov hol

theorem forest_of_no_parent_dep {s : Store}
    (hs : ∀ d ∈ s.deps, d.dep_type ≠ DepType.parent) : forestAcyclic s := by
  intro x hx
  rcases Relation.TransGen.head'_iff.mp hx with ⟨z, hxz, _⟩
  exact hs _ hxz rfl

theorem forest_of_single_parent_dep {s : Store} {u v : String}
    (hs : ∀ d ∈ s.deps, d.dep_type = DepType.parent → d = Dep.mk u v DepType.parent)
    (huv : u ≠ v) : forestAcyclic s := by
  have hstep : ∀ x y : String, parentStep s x y → x = u ∧ y = v := by
    intro x y h
    have h2 := hs _ h rfl
    injection h2 with h1 h2 h3
    exact ⟨h1, h2⟩
  intro x hx
  rcases Relation.TransGen.head'_iff.mp hx with ⟨z, hxz, hzx⟩
  obtain ⟨hxu, hzv⟩ := hstep _ _ hxz
  subst hxu
  subst hzv
  rcases hzx.cases_head with he | ⟨w, hvw, _⟩
  · exact huv he.symm
  · obtain ⟨hvu, _⟩ := hstep _ _ hvw
    exact huv hvu.symm

/-- Item used in the concurrent-reparent counterexample stores. -/
def c1item (i : String) : Item :=
  { id := i, title := i, description := none, item_type := ItemType.task,
    status := Status.opened, priority := 2, claimed_by := none,
    created_at := 0, updated_at := 0 }

/-- Common ancestor: items a and b, no edges. -/
def c1base : Store := { items := [("a", c1item "a"), ("b", c1item "b")], deps := [] }

/-- Local side reparents b under a. -/
def c1ours : Store :=
  { items := [("a", c1item "a"), ("b", c1item "b")],
    deps := [Dep.mk "b" "a" DepType.parent] }

/-- Remote side reparents a under b. -/
def c1theirs : Store :=
  { items := [("a", c1item "a"), ("b", c1item "b")],
    deps := [Dep.mk "a" "b" DepType.parent] }

/-- C1 counterexample: all three inputs are well-formed Documents satisfying every
invariant of spec section 3, yet the merged store contains both ParentOf edges a→b
and b→a, making item a its own transitive ancestor — merge_stores does not preserve
the ParentOf forest invariant. -/
theorem c1_cycle_counterexample :
    (c1base.WF ∧ GraphInv c1base) ∧ (c1ours.WF ∧ GraphInv c1ours) ∧
      (c1theirs.WF ∧ GraphInv c1theirs) ∧
      merge_stores c1base c1ours c1theirs =
        Except.ok (mergeOut c1base c1ours c1theirs) ∧
      Relation.TransGen (parentStep (mergeOut c1base c1ours c1theirs)) "a" "a" := by
  refine ⟨⟨⟨by decide, by decide⟩,
      by unfold edgesValid; decide, by unfold singleParent; decide,
      forest_of_no_parent_dep (by decide)⟩,
    ⟨⟨by decide, by decide⟩,
      by unfold edgesValid; decide, by unfold singleParent; decide,
      forest_of_single_parent_dep (u := "b") (v := "a")
        (by decide) (by decide)⟩,
    ⟨⟨by decide, by decide⟩,
      by unfold edgesValid; decide, by unfold singleParent; decide,
      forest_of_single_parent_dep (u := "a") (v := "b")
        (by decide) (by decide)⟩,
    rfl, ?_⟩
  refine Relation.TransGen.head (b := "b") (by unfold parentStep; decide)
    (Relation.TransGen.single ?_)
  unfold parentStep
  decide

/-- C1 (amended): every merge output has all dependency-edge endpoints present in
its item map and a well-formed item map (so ids are pairwise distinct and each item
keeps its id); delete, addBlocking, removeDependency, setParent and close preserve
well-formedness and all three graph invariants (edges reference existing items, at
most one parent per item, no item its own ParentOf ancestor); and create on success
with a fresh id preserves well-formedness, edge validity and single parenthood.
The ParentOf forest property is not preserved by merge_stores (see the
counterexample: concurrent reparents merge into a cycle), and create can violate it
in the edge case in which the fresh id captures the parent prefix argument on
re-resolution. -/
theorem c1_invariants_amended :
    (∀ base ours theirs : Store, edgesValid (mergeOut base ours theirs))
    ∧ (∀ base ours theirs : Store, base.WF → ours.WF → theirs.WF →
        (mergeOut base ours theirs).WF)
    ∧ (∀ (s : Store) (id : String) (s2 : Store), s.WF → GraphInv s →
        delete_item s id = Except.ok s2 → s2.WF ∧ GraphInv s2)
    ∧ (∀ (s : Store) (b1 b2 : String) (s2 : Store), s.WF → GraphInv s →
        add_blocking_dep s b1 b2 = Except.ok s2 → s2.WF ∧ GraphInv s2)
    ∧ (∀ (s : Store) (f1 f2 : String) (s2 : Store), s.WF → GraphInv s →
        remove_dep s f1 f2 = Except.ok s2 → s2.WF ∧ GraphInv s2)
    ∧ (∀ (fuel : Nat) (s : Store) (c p : String) (s2 : Store), s.WF → GraphInv s →
        set_parent fuel s c p = some (Except.ok s2) → s2.WF ∧ GraphInv s2)
    ∧ (∀ (s : Store) (id : String) (now : Int) (s2 : Store), s.WF → GraphInv s →
        close_item s id now = Except.ok s2 → s2.WF ∧ GraphInv s2)
    ∧ (∀ (s : Store) (newId title : String) (ty : ItemType) (pr : Nat)
        (d p : Option String) (now : Int) (rid : String) (s2 : Store),
        s.WF → GraphInv s → containsKey s.items newId = false →
        create_item s newId title ty pr d p now = (Except.ok rid, s2) →
        s2.WF ∧ edgesValid s2 ∧ singleParent s2) :=
  ⟨mergeOut_edgesValid,
   fun _ _ _ hb ho ht => mergeOut_WF hb ho ht,
   fun _ _ _ hwf hinv h => delete_preserves hwf hinv h,
   fun _ _ _ _ hwf hinv h => add_blocking_preserves hwf hinv h,
   fun _ _ _ _ hwf hinv h => remove_dep_preserves hwf hinv h,
   fun _ _ _ _ _ hwf hinv h => set_parent_preserves hwf hinv h,
   fun _ _ _ _ hwf hinv h => close_preserves hwf hinv h,
   fun _ _ _ _ _ _ _ _ _ _ hwf hinv hf h => create_preserves hwf hinv hf h⟩

/-- Store after the witness reparent: a's parent is b. -/
def c1after : Store :=
  { items := c1base.items, deps := [Dep.mk "a" "b" DepType.parent] }

/-- Witness instantiating the setParent clause of the amended C1 statement on a
concrete two-item store. -/
theorem c1_witness : c1after.WF ∧ GraphInv c1after :=
  c1_invariants_amended.2.2.2.2.2.1 1 c1base "a" "b" c1after
    ⟨by decide, by decide⟩
    ⟨by unfold edgesValid; decide, by unfold singleParent; decide,
      forest_of_no_parent_dep (by decide)⟩
    rfl
